import Mathlib

/-!
# Verification of the schema-tree traversal engine (`walk.go`)

The development embeds `Walk`, `walk` and the eight typed handler adapters of
`walk.go` as Lean functions with explicit state passing, and proves the
properties of the natural-language specification about them.

* Handlers are Go closures with side effects: a handler is a function from the
  caller's state to an `Outcome`, which is either a normal return or a panic,
  each carrying the state the handler left behind.
* The tree is a finite inductive value.  A node is either a `leaf` (its dynamic
  type does not implement `elementContainer`) or a `container` (it does, and
  `elements()` returns the stored child list).
-/

namespace ProtoWalk

/-! ## Data model -/

/-- Modelled from the spec: the node type declarations are not part of `walk.go`.
The variant tag is the dynamic Go type of a node.  The first eight tags are the
types the typed adapters of `walk.go` test for; the others stand for the rest of
the closed variant set (fields, enum fields, and any further kind). -/
inductive Variant where
  | Import
  | Message
  | Option
  | Enum
  | Oneof
  | Service
  | RPC
  | Package
  | Field
  | EnumField
  | Other (tag : Nat)
  deriving DecidableEq, Repr

/-- Modelled from the spec: the `Visitee` interface and the `elementContainer`
capability are declared outside `walk.go`.  A node carries its variant tag and
its identity `ptr` (the Go pointer).  A `leaf` is a node whose type does not
implement `elementContainer`; a `container` is one that does, and `elements` is
the ordered child sequence returned by its `elements()` method. -/
inductive Visitee where
  | leaf (variant : Variant) (ptr : Nat)
  | container (variant : Variant) (ptr : Nat) (elements : List Visitee)
  deriving Repr

/-- The dynamic variant of a node, which the type assertions `v.(*T)` inspect. -/
def Visitee.variant : Visitee → Variant
  | .leaf t _ => t
  | .container t _ _ => t

/-- The identity (pointer value) of a node. -/
def Visitee.ptr : Visitee → Nat
  | .leaf _ p => p
  | .container _ p _ => p

/-- The type assertion `eachElement.(elementContainer)` followed by `elements()`:
`none` when the assertion fails, the child sequence when it succeeds. -/
def Visitee.asContainer : Visitee → Option (List Visitee)
  | .leaf _ _ => none
  | .container _ _ els => some els

/-- Modelled from the spec: the root type `Proto` is declared outside `walk.go`.
It is a container (`Elements` is what its `elements()` returns) with an identity
of its own. -/
structure Proto where
  ptr : Nat
  Elements : List Visitee
  deriving Repr

/-- Modelled from the spec: `context.Context` is a library type.  The engine only
passes it on; handlers may read whether it is cancelled and a carried value. -/
structure Context where
  cancelled : Bool
  value : Nat
  deriving DecidableEq, Repr

/-- The value a panicking handler raises. -/
abbrev PanicValue := Nat

/-- The result of running effectful code on the caller's state: it returns
normally, or it panics with a value; in both cases `s` is the state it left. -/
inductive Outcome (σ : Type) where
  | returned (s : σ)
  | panicked (e : PanicValue) (s : σ)
  deriving DecidableEq, Repr

/-- The state left behind by an outcome. -/
def Outcome.state {σ : Type} : Outcome σ → σ
  | .returned s => s
  | .panicked _ s => s

/-- Sequencing of Go statements: the continuation runs only after a normal
return; a panic unwinds past it. -/
def Outcome.andThen {σ : Type} : Outcome σ → (σ → Outcome σ) → Outcome σ
  | .returned s, k => k s
  | .panicked e s, _ => .panicked e s

/-- Transport of the state of an outcome. -/
def Outcome.mapState {σ τ : Type} (f : σ → τ) : Outcome σ → Outcome τ
  | .returned s => .returned (f s)
  | .panicked e s => .panicked e (f s)

/-- The Go type `Handler func(ctx context.Context, v Visitee)`, acting on the
caller's state `σ`. -/
abbrev Handler (σ : Type) := Context → Visitee → σ → Outcome σ

/-! ## The traversal engine -/

/-- The inner loop of `walk`: `for _, eachFilter := range handlers` calling
`eachFilter(ctx, eachElement)`. -/
def callHandlers {σ : Type} (ctx : Context) (eachElement : Visitee) :
    List (Handler σ) → σ → Outcome σ
  | [], s => .returned s
  | eachFilter :: rest, s =>
      (eachFilter ctx eachElement s).andThen (callHandlers ctx eachElement rest)

mutual
/-- The body of the outer loop of `walk` for one element: all handlers are
called on it, then, if it is an `elementContainer`, `walk` recurses into it. -/
def walkElement {σ : Type} (ctx : Context) (handlers : List (Handler σ)) :
    Visitee → σ → Outcome σ
  | .leaf t p, s => callHandlers ctx (.leaf t p) handlers s
  | .container t p els, s =>
      (callHandlers ctx (.container t p els) handlers s).andThen
        (walk ctx handlers els)
/-- The function `walk` of `walk.go`; the list argument is the value of
`container.elements()` and the recursion over it is the outer `for` loop. -/
def walk {σ : Type} (ctx : Context) (handlers : List (Handler σ)) :
    List Visitee → σ → Outcome σ
  | [], s => .returned s
  | eachElement :: rest, s =>
      (walkElement ctx handlers eachElement s).andThen (walk ctx handlers rest)
end

/-- The entry point `Walk` of `walk.go`. -/
def Walk {σ : Type} (ctx : Context) (proto : Proto) (handlers : List (Handler σ)) :
    σ → Outcome σ :=
  walk ctx handlers proto.Elements

/-! ## The typed handler adapters -/

/-- Modelled from the spec: the pointer types `*Import`, `*Message`, ... are
declared outside `walk.go`.  A node narrowed to variant `t` is the node itself
together with the fact that its dynamic variant is `t`. -/
abbrev Narrowed (t : Variant) : Type := {v : Visitee // v.variant = t}

/-- The Go type `func(context.Context, *T)` of a variant-specific callback. -/
abbrev Callback (t : Variant) (σ : Type) := Context → Narrowed t → σ → Outcome σ

/-- The adapter `WithImport` of `walk.go`. -/
def WithImport {σ : Type} (apply : Callback .Import σ) : Handler σ :=
  fun ctx v s => if ok : v.variant = .Import then apply ctx ⟨v, ok⟩ s else .returned s

/-- The adapter `WithMessage` of `walk.go`. -/
def WithMessage {σ : Type} (apply : Callback .Message σ) : Handler σ :=
  fun ctx v s => if ok : v.variant = .Message then apply ctx ⟨v, ok⟩ s else .returned s

/-- The adapter `WithOption` of `walk.go`. -/
def WithOption {σ : Type} (apply : Callback .Option σ) : Handler σ :=
  fun ctx v s => if ok : v.variant = .Option then apply ctx ⟨v, ok⟩ s else .returned s

/-- The adapter `WithEnum` of `walk.go`. -/
def WithEnum {σ : Type} (apply : Callback .Enum σ) : Handler σ :=
  fun ctx v s => if ok : v.variant = .Enum then apply ctx ⟨v, ok⟩ s else .returned s

/-- The adapter `WithOneof` of `walk.go`. -/
def WithOneof {σ : Type} (apply : Callback .Oneof σ) : Handler σ :=
  fun ctx v s => if ok : v.variant = .Oneof then apply ctx ⟨v, ok⟩ s else .returned s

/-- The adapter `WithService` of `walk.go`. -/
def WithService {σ : Type} (apply : Callback .Service σ) : Handler σ :=
  fun ctx v s => if ok : v.variant = .Service then apply ctx ⟨v, ok⟩ s else .returned s

/-- The adapter `WithRPC` of `walk.go`. -/
def WithRPC {σ : Type} (apply : Callback .RPC σ) : Handler σ :=
  fun ctx v s => if ok : v.variant = .RPC then apply ctx ⟨v, ok⟩ s else .returned s

/-- The adapter `WithPackage` of `walk.go`. -/
def WithPackage {σ : Type} (apply : Callback .Package σ) : Handler σ :=
  fun ctx v s => if ok : v.variant = .Package then apply ctx ⟨v, ok⟩ s else .returned s

/-! ## Specification vocabulary -/

mutual
/-- A node followed by its descendants, depth-first pre-order, children in
stored order. -/
def subtree : Visitee → List Visitee
  | .leaf t p => [.leaf t p]
  | .container t p els => .container t p els :: preorder els
/-- The pre-order listing of a forest: each tree of the list in turn. -/
def preorder : List Visitee → List Visitee
  | [] => []
  | v :: rest => subtree v ++ preorder rest
end

/-- The proper descendants of the root, in depth-first pre-order. -/
def Proto.descendants (proto : Proto) : List Visitee :=
  preorder proto.Elements

/-- One handler invocation `handler(ctx, node)`; `handler` is the handler itself
or a label standing for it. -/
structure Call (α : Type) where
  handler : α
  ctx : Context
  node : Visitee

/-- The reference listing: every node of `nodes` in turn is replaced by the
calls of all of `hs` on it, in list order. -/
def callsOn {α : Type} (ctx : Context) (hs : List α) (nodes : List Visitee) :
    List (Call α) :=
  nodes.flatMap (fun n => hs.map (fun h => ⟨h, ctx, n⟩))

/-- Straight-line execution of a sequence of handler calls; a panic ends it. -/
def runCalls {σ : Type} : List (Call (Handler σ)) → σ → Outcome σ
  | [], s => .returned s
  | c :: cs, s => (c.handler c.ctx c.node s).andThen (runCalls cs)

/-- A handler returns normally on every input. -/
def ReturnsNormally {σ : Type} (h : Handler σ) : Prop :=
  ∀ ctx v s, ∃ s1, h ctx v s = .returned s1

/-- The handler `h` instrumented to record its own invocation under `label` in a
log kept next to the caller's state.  The record is made whether `h` returns or
panics. -/
def traced {α σ : Type} (label : α) (h : Handler σ) : Handler (σ × List (Call α)) :=
  fun ctx v st => (h ctx v st.1).mapState (fun s => (s, st.2 ++ [⟨label, ctx, v⟩]))

/-- A labelled handler list with every handler instrumented. -/
def tracedAll {α σ : Type} (hs : List (α × Handler σ)) :
    List (Handler (σ × List (Call α))) :=
  hs.map (fun p => traced p.1 p.2)

/-- The sequence of handler invocations made by `Walk`: the log written by the
instrumented handlers during the walk, started empty. -/
def invocations {α σ : Type} (ctx : Context) (proto : Proto)
    (hs : List (α × Handler σ)) (s : σ) : List (Call α) :=
  (Walk ctx proto (tracedAll hs) (s, [])).state.2

/-- The calls made when a sequence of labelled calls is executed in order from
state `s`: every call up to and including the first one that panics. -/
def madeCalls {α σ : Type} : List (Call (α × Handler σ)) → σ → List (Call α)
  | [], _ => []
  | c :: cs, s =>
      ⟨c.handler.1, c.ctx, c.node⟩ ::
        (match c.handler.2 c.ctx c.node s with
          | .returned s1 => madeCalls cs s1
          | .panicked _ _ => [])

/-- The callback `apply` instrumented to record its own invocation under `label`
in a log kept next to the caller's state; the recorded node is the node the
callback received. -/
def tracedCallback {α σ : Type} {t : Variant} (label : α) (apply : Callback t σ) :
    Callback t (σ × List (Call α)) :=
  fun ctx n st => (apply ctx n st.1).mapState (fun s => (s, st.2 ++ [⟨label, ctx, n.1⟩]))

/-- A handler obtained from one of the eight adapter constructors of `walk.go`,
together with the callback it wraps. -/
inductive Adapter (σ : Type) where
  | withImport (apply : Callback .Import σ)
  | withMessage (apply : Callback .Message σ)
  | withOption (apply : Callback .Option σ)
  | withEnum (apply : Callback .Enum σ)
  | withOneof (apply : Callback .Oneof σ)
  | withService (apply : Callback .Service σ)
  | withRPC (apply : Callback .RPC σ)
  | withPackage (apply : Callback .Package σ)

/-- The target variant of a typed adapter. -/
def Adapter.target {σ : Type} : Adapter σ → Variant
  | .withImport _ => .Import
  | .withMessage _ => .Message
  | .withOption _ => .Option
  | .withEnum _ => .Enum
  | .withOneof _ => .Oneof
  | .withService _ => .Service
  | .withRPC _ => .RPC
  | .withPackage _ => .Package

/-- The `Handler` a typed adapter stands for. -/
def Adapter.handler {σ : Type} : Adapter σ → Handler σ
  | .withImport apply => WithImport apply
  | .withMessage apply => WithMessage apply
  | .withOption apply => WithOption apply
  | .withEnum apply => WithEnum apply
  | .withOneof apply => WithOneof apply
  | .withService apply => WithService apply
  | .withRPC apply => WithRPC apply
  | .withPackage apply => WithPackage apply

/-- The same adapter around the instrumented callback. -/
def Adapter.traced {α σ : Type} (label : α) : Adapter σ → Adapter (σ × List (Call α))
  | .withImport apply => .withImport (tracedCallback label apply)
  | .withMessage apply => .withMessage (tracedCallback label apply)
  | .withOption apply => .withOption (tracedCallback label apply)
  | .withEnum apply => .withEnum (tracedCallback label apply)
  | .withOneof apply => .withOneof (tracedCallback label apply)
  | .withService apply => .withService (tracedCallback label apply)
  | .withRPC apply => .withRPC (tracedCallback label apply)
  | .withPackage apply => .withPackage (tracedCallback label apply)

/-- The sequence of wrapped-callback calls made during `Walk` with a list of
labelled typed adapters: the log written by the instrumented callbacks. -/
def callbackCalls {α σ : Type} (ctx : Context) (proto : Proto)
    (adapters : List (α × Adapter σ)) (s : σ) : List (Call α) :=
  (Walk ctx proto (adapters.map (fun p => (p.2.traced p.1).handler)) (s, [])).state.2

/-- The reference listing for typed adapters: every node of `nodes` in turn is
replaced by the calls of those adapters, in list order, whose target variant is
the variant of the node. -/
def matchingCalls {α σ : Type} (ctx : Context) (adapters : List (α × Adapter σ))
    (nodes : List Visitee) : List (Call α) :=
  nodes.flatMap (fun n =>
    (adapters.filter (fun p => decide (n.variant = p.2.target))).map
      (fun p => ⟨p.1, ctx, n⟩))

/-- An example handler: panics with value 99 on the node of identity `p`, and
otherwise increments the counter. -/
def panicOn (p : Nat) : Handler Nat :=
  fun _ v s => if v.ptr = p then .panicked 99 s else .returned (s + 1)

/-- Sequencing with a count of executed loop iterations: the iterations of the
continuation are added only when the first part returned normally. -/
def andThenCount {σ : Type} (r : Outcome σ × Nat) (k : σ → Outcome σ × Nat) :
    Outcome σ × Nat :=
  match r.1 with
  | .returned s => ((k s).1, r.2 + (k s).2)
  | .panicked e s => (.panicked e s, r.2)

mutual
/-- The loop body of `walk` with the number of iterations of the outer loop it
executes (one for the element itself, plus those of the recursive call). -/
def walkElementCount {σ : Type} (ctx : Context) (handlers : List (Handler σ)) :
    Visitee → σ → Outcome σ × Nat
  | .leaf t p, s => (callHandlers ctx (.leaf t p) handlers s, 1)
  | .container t p els, s =>
      andThenCount (callHandlers ctx (.container t p els) handlers s, 1)
        (walkCount ctx handlers els)
/-- The function `walk` instrumented with a count of the iterations of its outer
`for` loop, over all recursive activations. -/
def walkCount {σ : Type} (ctx : Context) (handlers : List (Handler σ)) :
    List Visitee → σ → Outcome σ × Nat
  | [], s => (.returned s, 0)
  | eachElement :: rest, s =>
      andThenCount (walkElementCount ctx handlers eachElement s)
        (walkCount ctx handlers rest)
end

/-- The consecutive blocks of `k` entries of a sequence (none when `k = 0`). -/
def blocks {β : Type} (k : Nat) (l : List β) : List (List β) :=
  (List.range (l.length / k)).map (fun j => (l.drop (j * k)).take k)

/-- The sequence of visited nodes read off an invocation sequence made with `k`
handlers: the calls of one visit are consecutive and collapse to its node. -/
def visitedNodes {α : Type} (k : Nat) (calls : List (Call α)) : List Visitee :=
  (blocks k calls).filterMap (fun b => b.head?.map Call.node)

/-- Relabelling of the handler component of a call. -/
def Call.map {α β : Type} (f : α → β) (c : Call α) : Call β :=
  ⟨f c.handler, c.ctx, c.node⟩

/-- An example callback: adds the identity of the narrowed node to a counter. -/
def addNarrowedPtr (t : Variant) : Callback t Nat :=
  fun _ n s => .returned (s + n.1.ptr)

/-- A small tree used in examples: root -> [M(message) -> [O(option), F(field)]]. -/
def sampleProto : Proto :=
  ⟨0, [.container .Message 1 [.leaf .Option 2, .leaf .Field 3]]⟩

/-- A live context used in examples. -/
def sampleCtx : Context := ⟨false, 7⟩

/-- An example handler: adds the identity of the visited node to a counter. -/
def addPtr : Handler Nat := fun _ v s => .returned (s + v.ptr)

/-- An example handler: doubles the counter. -/
def double : Handler Nat := fun _ _ s => .returned (2 * s)

/-- A cancelled context used in examples. -/
def cancelledCtx : Context := ⟨true, 7⟩

/-- An example handler that reads the context: it adds the identity of the node
to the counter only while the context is live. -/
def addIfLive : Handler Nat :=
  fun ctx v s => if ctx.cancelled then .returned s else .returned (s + v.ptr)

/-- The proper descendants of a node, in depth-first pre-order: those of its
children when it is a container, none when it is a leaf. -/
def Visitee.descendants (v : Visitee) : List Visitee :=
  match v.asContainer with
  | some els => preorder els
  | none => []

/-- Every entry of `l` satisfying `p` stands before every entry satisfying `q`. -/
def AllBefore {β : Type} (p q : β → Prop) (l : List β) : Prop :=
  ∀ (i j : Nat) (x y : β), l[i]? = some x → l[j]? = some y → p x → q y → i < j

/-- A tree with two sibling subtrees, used in examples:
root -> [S(service) -> [R(rpc) -> [O(option)]], M(message) -> [F(field)]]. -/
def siblingProto : Proto :=
  ⟨0, [.container .Service 1 [.container .RPC 2 [.leaf .Option 3]],
       .container .Message 4 [.leaf .Field 5]]⟩

/-- An enclosing container of a position in the tree: its variant and identity
and its children stored before and after the child that holds the position. -/
structure Frame where
  variant : Variant
  ptr : Nat
  before : List Visitee
  after : List Visitee

/-- The child sequence of the root obtained by placing the child sequence `els`
below the enclosing containers `frames`, outermost first. -/
def plug : List Frame → List Visitee → List Visitee
  | [], els => els
  | f :: fs, els => f.before ++ .container f.variant f.ptr (plug fs els) :: f.after

/-- What identifies a call: the handler, the context and the identity of the
node it is made on. -/
def Call.shape {α : Type} (c : Call α) : α × Context × Nat :=
  (c.handler, c.ctx, c.node.ptr)

mutual
/-- The number of positions in the subtree of a node, the node included. -/
def Visitee.size : Visitee → Nat
  | .leaf _ _ => 1
  | .container _ _ els => 1 + forestSize els
/-- The number of positions in a forest. -/
def forestSize : List Visitee → Nat
  | [] => 0
  | v :: rest => v.size + forestSize rest
end

/-- A tree in which the same node occurs at several positions, used in
examples: root -> [F, F, M -> [O, O]]. -/
def repeatedProto : Proto :=
  ⟨0, [.leaf .Field 5, .leaf .Field 5,
       .container .Message 1 [.leaf .Option 2, .leaf .Option 2]]⟩

/-- The single fused handler of a handler list: on a node it calls the handlers
of the list in order. -/
def fuse {σ : Type} : List (Handler σ) → Handler σ
  | [] => fun _ _ s => .returned s
  | h :: hs => fun ctx v s => (h ctx v s).andThen (fuse hs ctx v)

/-- The eight variants targeted by the typed adapters of `walk.go`. -/
def adapterTargets : List Variant :=
  [.Import, .Message, .Option, .Enum, .Oneof, .Service, .RPC, .Package]

/-- The callback calls made when the handlers of a list of labelled typed
adapters are called in order on one node: the log written by the instrumented
callbacks. -/
def callbackCallsOn {α σ : Type} (ctx : Context) (v : Visitee)
    (adapters : List (α × Adapter σ)) (s : σ) : List (Call α) :=
  (callHandlers ctx v (adapters.map (fun q => (q.2.traced q.1).handler)) (s, [])).state.2

/-! ## Basic lemmas -/

theorem andThen_assoc {σ : Type} (o : Outcome σ) (f g : σ → Outcome σ) :
    (o.andThen f).andThen g = o.andThen (fun s => (f s).andThen g) := by
  cases o <;> rfl

theorem returned_andThen {σ : Type} (s : σ) (k : σ → Outcome σ) :
    (Outcome.returned s).andThen k = k s := rfl

theorem andThen_returned_fun {σ : Type} (o : Outcome σ) :
    o.andThen (fun s => Outcome.returned s) = o := by
  cases o <;> rfl

theorem andThen_returned {σ : Type} (o : Outcome σ) :
    o.andThen Outcome.returned = o := by
  cases o <;> rfl

theorem walkElement_eq {σ : Type} (ctx : Context) (hs : List (Handler σ))
    (e : Visitee) (s : σ) :
    walkElement ctx hs e s =
      (callHandlers ctx e hs s).andThen (fun s1 =>
        match e.asContainer with
        | some next => walk ctx hs next s1
        | none => .returned s1) := by
  cases e with
  | leaf t p => simp [walkElement, Visitee.asContainer, andThen_returned]
  | container t p els => simp [walkElement, Visitee.asContainer]

theorem runCalls_append {σ : Type} (a b : List (Call (Handler σ))) (s : σ) :
    runCalls (a ++ b) s = (runCalls a s).andThen (runCalls b) := by
  induction a generalizing s with
  | nil => rfl
  | cons c cs ih =>
    simp only [List.cons_append, runCalls]
    cases c.handler c.ctx c.node s with
    | returned s1 => simpa [Outcome.andThen] using ih s1
    | panicked e s1 => rfl

theorem callHandlers_eq_runCalls {σ : Type} (ctx : Context) (v : Visitee)
    (hs : List (Handler σ)) (s : σ) :
    callHandlers ctx v hs s = runCalls (hs.map (fun h => ⟨h, ctx, v⟩)) s := by
  induction hs generalizing s with
  | nil => rfl
  | cons h hs ih =>
    simp only [callHandlers, List.map_cons, runCalls]
    congr 1
    funext s1
    exact ih s1

theorem callsOn_nil {α : Type} (ctx : Context) (hs : List α) :
    callsOn ctx hs [] = [] := rfl

theorem callsOn_cons {α : Type} (ctx : Context) (hs : List α) (n : Visitee)
    (ns : List Visitee) :
    callsOn ctx hs (n :: ns) = hs.map (fun h => ⟨h, ctx, n⟩) ++ callsOn ctx hs ns := by
  simp [callsOn]

theorem callsOn_append {α : Type} (ctx : Context) (hs : List α)
    (a b : List Visitee) :
    callsOn ctx hs (a ++ b) = callsOn ctx hs a ++ callsOn ctx hs b := by
  simp [callsOn]

mutual
theorem walkElement_eq_runCalls {σ : Type} (ctx : Context) (hs : List (Handler σ)) :
    ∀ (e : Visitee) (s : σ),
      walkElement ctx hs e s = runCalls (callsOn ctx hs (subtree e)) s
  | .leaf t p, s => by
    simp [walkElement, subtree, callsOn_cons, callsOn_nil, callHandlers_eq_runCalls]
  | .container t p els, s => by
    simp only [walkElement, subtree, callsOn_cons, runCalls_append,
      callHandlers_eq_runCalls]
    congr 1
    funext s1
    exact walk_eq_runCalls ctx hs els s1
theorem walk_eq_runCalls {σ : Type} (ctx : Context) (hs : List (Handler σ)) :
    ∀ (l : List Visitee) (s : σ),
      walk ctx hs l s = runCalls (callsOn ctx hs (preorder l)) s
  | [], s => by simp [walk, preorder, callsOn_nil, runCalls]
  | e :: rest, s => by
    simp only [walk, preorder, callsOn_append, runCalls_append]
    rw [walkElement_eq_runCalls ctx hs e s]
    congr 1
    funext s1
    exact walk_eq_runCalls ctx hs rest s1
end

theorem callsOn_map {α β : Type} (f : α → β) (ctx : Context) (hs : List α)
    (ns : List Visitee) :
    callsOn ctx (hs.map f) ns = (callsOn ctx hs ns).map (Call.map f) := by
  induction ns with
  | nil => rfl
  | cons n ns ih =>
    simp only [callsOn_cons, ih, List.map_append, List.map_map]
    rfl

theorem mem_callsOn {α : Type} {ctx : Context} {hs : List α} {ns : List Visitee}
    {c : Call α} :
    c ∈ callsOn ctx hs ns ↔ c.handler ∈ hs ∧ c.ctx = ctx ∧ c.node ∈ ns := by
  obtain ⟨h, x, n⟩ := c
  simp only [callsOn, List.mem_flatMap, List.mem_map, Call.mk.injEq]
  constructor
  · rintro ⟨n1, hn1, h1, hh1, rfl, rfl, rfl⟩
    exact ⟨hh1, rfl, hn1⟩
  · rintro ⟨hh, rfl, hn⟩
    exact ⟨n, hn, h, hh, rfl, rfl, rfl⟩

theorem length_callsOn {α : Type} (ctx : Context) (hs : List α) (ns : List Visitee) :
    (callsOn ctx hs ns).length = hs.length * ns.length := by
  induction ns with
  | nil => simp [callsOn_nil]
  | cons n ns ih =>
    simp only [callsOn_cons, List.length_append, List.length_map, ih, List.length_cons]
    ring

theorem runCalls_traced {α σ : Type} (cs : List (Call (α × Handler σ))) (s : σ)
    (log : List (Call α)) :
    runCalls (cs.map (Call.map (fun p => traced p.1 p.2))) (s, log) =
      (runCalls (cs.map (Call.map Prod.snd)) s).mapState
        (fun s1 => (s1, log ++ madeCalls cs s)) := by
  induction cs generalizing s log with
  | nil => simp [runCalls, madeCalls, Outcome.mapState]
  | cons c cs ih =>
    simp only [List.map_cons, runCalls, Call.map, traced, madeCalls]
    cases hc : c.handler.2 c.ctx c.node s with
    | returned s1 =>
      simp only [Outcome.mapState, Outcome.andThen]
      rw [ih s1]
      simp [List.append_assoc]
      rfl
    | panicked e s1 =>
      simp [Outcome.mapState, Outcome.andThen]

theorem Walk_eq_runCalls {σ : Type} (ctx : Context) (proto : Proto)
    (hs : List (Handler σ)) (s : σ) :
    Walk ctx proto hs s = runCalls (callsOn ctx hs proto.descendants) s :=
  walk_eq_runCalls ctx hs proto.Elements s

theorem Walk_tracedAll {α σ : Type} (ctx : Context) (proto : Proto)
    (hs : List (α × Handler σ)) (s : σ) (log : List (Call α)) :
    Walk ctx proto (tracedAll hs) (s, log) =
      (Walk ctx proto (hs.map Prod.snd) s).mapState
        (fun s1 => (s1, log ++ madeCalls (callsOn ctx hs proto.descendants) s)) := by
  rw [Walk_eq_runCalls, Walk_eq_runCalls, tracedAll, callsOn_map, callsOn_map,
    runCalls_traced]

theorem invocations_eq_madeCalls {α σ : Type} (ctx : Context) (proto : Proto)
    (hs : List (α × Handler σ)) (s : σ) :
    invocations ctx proto hs s = madeCalls (callsOn ctx hs proto.descendants) s := by
  unfold invocations
  rw [Walk_tracedAll]
  cases Walk ctx proto (hs.map Prod.snd) s <;> simp [Outcome.mapState, Outcome.state]

theorem madeCalls_of_returns {α σ : Type} (cs : List (Call (α × Handler σ)))
    (hret : ∀ c ∈ cs, ReturnsNormally c.handler.2) (s : σ) :
    madeCalls cs s = cs.map (Call.map Prod.fst) := by
  induction cs generalizing s with
  | nil => rfl
  | cons c cs ih =>
    obtain ⟨s1, hs1⟩ := hret c (List.mem_cons_self _ _) c.ctx c.node s
    simp only [madeCalls, hs1, List.map_cons]
    rw [ih (fun c1 hc1 => hret c1 (List.mem_cons_of_mem _ hc1)) s1]
    rfl

theorem mem_madeCalls {α σ : Type} {cs : List (Call (α × Handler σ))} {s : σ}
    {c : Call α} (hc : c ∈ madeCalls cs s) : c ∈ cs.map (Call.map Prod.fst) := by
  induction cs generalizing s with
  | nil => simp [madeCalls] at hc
  | cons c1 cs ih =>
    simp only [madeCalls, List.mem_cons] at hc
    rcases hc with rfl | hc
    · exact List.mem_cons_self _ _
    · cases h1 : c1.handler.2 c1.ctx c1.node s with
      | returned s1 =>
        rw [h1] at hc
        exact List.mem_cons_of_mem _ (ih hc)
      | panicked e s1 =>
        rw [h1] at hc
        simp at hc

theorem invocations_of_returns {α σ : Type} (ctx : Context) (proto : Proto)
    (hs : List (α × Handler σ)) (hret : ∀ p ∈ hs, ReturnsNormally p.2) (s : σ) :
    invocations ctx proto hs s = callsOn ctx (hs.map Prod.fst) proto.descendants := by
  rw [invocations_eq_madeCalls, madeCalls_of_returns, callsOn_map]
  intro c hc
  exact hret _ (mem_callsOn.1 hc).1

theorem mem_invocations {α σ : Type} {ctx : Context} {proto : Proto}
    {hs : List (α × Handler σ)} {s : σ} {c : Call α}
    (hc : c ∈ invocations ctx proto hs s) :
    c.handler ∈ hs.map Prod.fst ∧ c.ctx = ctx ∧ c.node ∈ proto.descendants := by
  rw [invocations_eq_madeCalls] at hc
  have h := mem_madeCalls hc
  rw [← callsOn_map] at h
  exact mem_callsOn.1 h

theorem returns_of_enum {σ : Type} {hs : List (Handler σ)}
    (hret : ∀ h ∈ hs, ReturnsNormally h) : ∀ p ∈ hs.enum, ReturnsNormally p.2 := by
  intro p hp
  obtain ⟨i, h⟩ := p
  have hm : (i, h).2 ∈ (hs.enum).map Prod.snd := List.mem_map_of_mem Prod.snd hp
  rw [List.enum_map_snd] at hm
  exact hret h hm

theorem invocations_enum_of_returns {σ : Type} (ctx : Context) (proto : Proto)
    (hs : List (Handler σ)) (hret : ∀ h ∈ hs, ReturnsNormally h) (s : σ) :
    invocations ctx proto hs.enum s =
      callsOn ctx (List.range hs.length) proto.descendants := by
  rw [invocations_of_returns ctx proto hs.enum (returns_of_enum hret) s,
    List.enum_map_fst]

/-! ## The invocation sequence of `Walk` -/

/-- C1: `Walk` behaves exactly as the straight-line execution of the reference
pre-order listing (the root's proper descendants in depth-first pre-order, each
node replaced by the calls of all handlers on it in list order); and when the
handlers return normally, the recorded sequence of invocations, with handlers
named by their position in the list, is that listing. -/
theorem Walk_invocations_eq_preorder_listing {σ : Type} (ctx : Context) (proto : Proto)
    (hs : List (Handler σ)) (s : σ) :
    Walk ctx proto hs s = runCalls (callsOn ctx hs proto.descendants) s ∧
    ((∀ h ∈ hs, ReturnsNormally h) →
      invocations ctx proto hs.enum s =
        callsOn ctx (List.range hs.length) proto.descendants) := by
  exact ⟨Walk_eq_runCalls ctx proto hs s,
    fun hret => invocations_enum_of_returns ctx proto hs hret s⟩

/-- C1, witness: on root -> [M -> [O, F]] with the handlers `addPtr`, `double`. -/
theorem Walk_invocations_eq_preorder_listing_witness :
    (∀ h ∈ [addPtr, double], ReturnsNormally h) ∧
    Walk sampleCtx sampleProto [addPtr, double] 0 = .returned 22 ∧
    invocations sampleCtx sampleProto [addPtr, double].enum 0 =
      [⟨0, sampleCtx, .container .Message 1 [.leaf .Option 2, .leaf .Field 3]⟩,
       ⟨1, sampleCtx, .container .Message 1 [.leaf .Option 2, .leaf .Field 3]⟩,
       ⟨0, sampleCtx, .leaf .Option 2⟩, ⟨1, sampleCtx, .leaf .Option 2⟩,
       ⟨0, sampleCtx, .leaf .Field 3⟩, ⟨1, sampleCtx, .leaf .Field 3⟩] := by
  have hret : ∀ h ∈ [addPtr, double], ReturnsNormally h := by
    intro h hh
    simp only [List.mem_cons, List.mem_singleton, List.not_mem_nil, or_false] at hh
    rcases hh with rfl | rfl <;> exact fun _ _ _ => ⟨_, rfl⟩
  refine ⟨hret, ?_, ?_⟩
  · rw [(Walk_invocations_eq_preorder_listing sampleCtx sampleProto [addPtr, double] 0).1]
    rfl
  · rw [(Walk_invocations_eq_preorder_listing sampleCtx sampleProto [addPtr, double] 0).2
      hret]
    rfl

theorem filter_handler_callsOn_range (ctx : Context) (k i : Nat) (hi : i < k)
    (ns : List Visitee) :
    ((callsOn ctx (List.range k) ns).filter (fun c => decide (c.handler = i))).map
      Call.node = ns := by
  induction ns with
  | nil => rfl
  | cons n ns ih =>
    rw [callsOn_cons, List.filter_append, List.map_append, ih, List.filter_map]
    have hf : (List.range k).filter
        ((fun c : Call Nat => decide (c.handler = i)) ∘ fun h => ⟨h, ctx, n⟩) = [i] := by
      have : ((fun c : Call Nat => decide (c.handler = i)) ∘ fun h => ⟨h, ctx, n⟩) =
          fun j => decide (j = i) := rfl
      rw [this, List.filter_eq,
        List.count_eq_one_of_mem (List.nodup_range k) (List.mem_range.2 hi)]
      rfl
    rw [hf]
    rfl

theorem countP_ptr_of_nodup (ns : List Visitee) (hd : (ns.map Visitee.ptr).Nodup)
    (n : Visitee) (hn : n ∈ ns) :
    ns.countP (fun v => decide (v.ptr = n.ptr)) = 1 := by
  have h1 : List.count n.ptr (ns.map Visitee.ptr) = 1 :=
    List.count_eq_one_of_mem hd (List.mem_map_of_mem _ hn)
  rw [List.count_eq_countP, List.countP_map] at h1
  rw [← h1]
  rfl

/-- C2: on a tree whose nodes are pairwise distinct, with `k` handlers that
return normally, every descendant of the root is visited exactly once and
every handler is invoked exactly once on it: each pair (handler position `i`,
descendant `n`) occurs exactly once in the invocation sequence, the calls of every
single handler run through the descendants once each in pre-order, and the total
number of invocations is `k` times the number of descendants. -/
theorem Walk_visits_every_node_once {σ : Type} (ctx : Context) (proto : Proto)
    (hs : List (Handler σ)) (s : σ)
    (hdistinct : (proto.descendants.map Visitee.ptr).Nodup)
    (hret : ∀ h ∈ hs, ReturnsNormally h) :
    (∀ n ∈ proto.descendants, ∀ i, i < hs.length →
      (invocations ctx proto hs.enum s).countP
        (fun c => decide (c.handler = i ∧ c.node.ptr = n.ptr)) = 1) ∧
    (∀ i, i < hs.length →
      ((invocations ctx proto hs.enum s).filter (fun c => decide (c.handler = i))).map
        Call.node = proto.descendants) ∧
    (invocations ctx proto hs.enum s).length = hs.length * proto.descendants.length := by
  have hinv := invocations_enum_of_returns ctx proto hs hret s
  have hfilter : ∀ i, i < hs.length →
      ((invocations ctx proto hs.enum s).filter (fun c => decide (c.handler = i))).map
        Call.node = proto.descendants := by
    intro i hi
    rw [hinv]
    exact filter_handler_callsOn_range ctx hs.length i hi _
  refine ⟨?_, hfilter, ?_⟩
  · intro n hn i hi
    have h1 := countP_ptr_of_nodup proto.descendants hdistinct n hn
    rw [← hfilter i hi, List.countP_map, List.countP_filter] at h1
    rw [← h1]
    congr 1
    funext c
    simp only [Function.comp, Bool.decide_and]
    exact Bool.and_comm _ _
  · rw [hinv, length_callsOn, List.length_range]

/-- C2, witness: root -> [M -> [O, F]] with two handlers gives 2 * 3 calls. -/
theorem Walk_visits_every_node_once_witness :
    (sampleProto.descendants.map Visitee.ptr).Nodup ∧
    (∀ h ∈ [addPtr, double], ReturnsNormally h) ∧
    (invocations sampleCtx sampleProto [addPtr, double].enum 0).countP
        (fun c => decide (c.handler = 1 ∧ c.node.ptr = 2)) = 1 ∧
    (invocations sampleCtx sampleProto [addPtr, double].enum 0).length = 6 := by
  have hd : (sampleProto.descendants.map Visitee.ptr).Nodup := by decide
  have hret : ∀ h ∈ [addPtr, double], ReturnsNormally h := by
    intro h hh
    simp only [List.mem_cons, List.mem_singleton, List.not_mem_nil, or_false] at hh
    rcases hh with rfl | rfl <;> exact fun _ _ _ => ⟨_, rfl⟩
  have h := Walk_visits_every_node_once sampleCtx sampleProto [addPtr, double] 0 hd hret
  refine ⟨hd, hret, ?_, h.2.2⟩
  exact h.1 (.leaf .Option 2) (by simp [sampleProto, Proto.descendants, preorder, subtree])
    1 (by decide)

/-- C3: when the root is not one of its own descendants, no handler invocation
made by `Walk` receives the root node: every delivered node is a descendant of
the root, and none has the identity of the root.  This holds for every handler
list, whether or not a handler panics. -/
theorem Walk_never_delivers_root {α σ : Type} (ctx : Context) (proto : Proto)
    (hs : List (α × Handler σ)) (s : σ)
    (htree : ∀ d ∈ proto.descendants, d.ptr ≠ proto.ptr) :
    ∀ c ∈ invocations ctx proto hs s,
      c.node ∈ proto.descendants ∧ c.node.ptr ≠ proto.ptr := by
  intro c hc
  have hm := (mem_invocations hc).2.2
  exact ⟨hm, htree _ hm⟩

/-- C3, witness: the sample tree, whose root has identity 0 and descendants 1, 2, 3. -/
theorem Walk_never_delivers_root_witness :
    (∀ d ∈ sampleProto.descendants, d.ptr ≠ sampleProto.ptr) ∧
    ∀ c ∈ invocations sampleCtx sampleProto [addPtr, double].enum 0,
      c.node ∈ sampleProto.descendants ∧ c.node.ptr ≠ sampleProto.ptr := by
  have ht : ∀ d ∈ sampleProto.descendants, d.ptr ≠ sampleProto.ptr := by
    intro d hd
    simp only [sampleProto, Proto.descendants, preorder, subtree, List.cons_append,
      List.nil_append, List.append_nil, List.mem_cons, List.mem_singleton,
      List.not_mem_nil, or_false] at hd
    rcases hd with rfl | rfl | rfl <;> simp [Visitee.ptr, sampleProto]
  exact ⟨ht, Walk_never_delivers_root sampleCtx sampleProto _ 0 ht⟩

/-! ## The typed adapters -/

/-- C4: each of the eight typed adapters, invoked on a node whose variant is its
target variant, behaves exactly as one call of the wrapped callback with the
same context and that very node narrowed to the variant; with a recording
callback the log gains exactly one entry, for that context and node. -/
theorem adapters_forward_on_match {α σ : Type} (ctx : Context) (s : σ) (label : α)
    (log : List (Call α)) :
    (∀ (apply : Callback .Import σ) (v : Visitee) (hv : v.variant = .Import),
      WithImport apply ctx v s = apply ctx ⟨v, hv⟩ s ∧
      (WithImport (tracedCallback label apply) ctx v (s, log)).state.2 =
        log ++ [⟨label, ctx, v⟩]) ∧
    (∀ (apply : Callback .Message σ) (v : Visitee) (hv : v.variant = .Message),
      WithMessage apply ctx v s = apply ctx ⟨v, hv⟩ s ∧
      (WithMessage (tracedCallback label apply) ctx v (s, log)).state.2 =
        log ++ [⟨label, ctx, v⟩]) ∧
    (∀ (apply : Callback .Option σ) (v : Visitee) (hv : v.variant = .Option),
      WithOption apply ctx v s = apply ctx ⟨v, hv⟩ s ∧
      (WithOption (tracedCallback label apply) ctx v (s, log)).state.2 =
        log ++ [⟨label, ctx, v⟩]) ∧
    (∀ (apply : Callback .Enum σ) (v : Visitee) (hv : v.variant = .Enum),
      WithEnum apply ctx v s = apply ctx ⟨v, hv⟩ s ∧
      (WithEnum (tracedCallback label apply) ctx v (s, log)).state.2 =
        log ++ [⟨label, ctx, v⟩]) ∧
    (∀ (apply : Callback .Oneof σ) (v : Visitee) (hv : v.variant = .Oneof),
      WithOneof apply ctx v s = apply ctx ⟨v, hv⟩ s ∧
      (WithOneof (tracedCallback label apply) ctx v (s, log)).state.2 =
        log ++ [⟨label, ctx, v⟩]) ∧
    (∀ (apply : Callback .Service σ) (v : Visitee) (hv : v.variant = .Service),
      WithService apply ctx v s = apply ctx ⟨v, hv⟩ s ∧
      (WithService (tracedCallback label apply) ctx v (s, log)).state.2 =
        log ++ [⟨label, ctx, v⟩]) ∧
    (∀ (apply : Callback .RPC σ) (v : Visitee) (hv : v.variant = .RPC),
      WithRPC apply ctx v s = apply ctx ⟨v, hv⟩ s ∧
      (WithRPC (tracedCallback label apply) ctx v (s, log)).state.2 =
        log ++ [⟨label, ctx, v⟩]) ∧
    (∀ (apply : Callback .Package σ) (v : Visitee) (hv : v.variant = .Package),
      WithPackage apply ctx v s = apply ctx ⟨v, hv⟩ s ∧
      (WithPackage (tracedCallback label apply) ctx v (s, log)).state.2 =
        log ++ [⟨label, ctx, v⟩]) := by
  refine ⟨?_, ?_, ?_, ?_, ?_, ?_, ?_, ?_⟩
  · intro apply v hv
    refine ⟨by simp [WithImport, hv], ?_⟩
    simp only [WithImport, hv, dite_true, tracedCallback]
    cases apply ctx ⟨v, hv⟩ s <;> rfl
  · intro apply v hv
    refine ⟨by simp [WithMessage, hv], ?_⟩
    simp only [WithMessage, hv, dite_true, tracedCallback]
    cases apply ctx ⟨v, hv⟩ s <;> rfl
  · intro apply v hv
    refine ⟨by simp [WithOption, hv], ?_⟩
    simp only [WithOption, hv, dite_true, tracedCallback]
    cases apply ctx ⟨v, hv⟩ s <;> rfl
  · intro apply v hv
    refine ⟨by simp [WithEnum, hv], ?_⟩
    simp only [WithEnum, hv, dite_true, tracedCallback]
    cases apply ctx ⟨v, hv⟩ s <;> rfl
  · intro apply v hv
    refine ⟨by simp [WithOneof, hv], ?_⟩
    simp only [WithOneof, hv, dite_true, tracedCallback]
    cases apply ctx ⟨v, hv⟩ s <;> rfl
  · intro apply v hv
    refine ⟨by simp [WithService, hv], ?_⟩
    simp only [WithService, hv, dite_true, tracedCallback]
    cases apply ctx ⟨v, hv⟩ s <;> rfl
  · intro apply v hv
    refine ⟨by simp [WithRPC, hv], ?_⟩
    simp only [WithRPC, hv, dite_true, tracedCallback]
    cases apply ctx ⟨v, hv⟩ s <;> rfl
  · intro apply v hv
    refine ⟨by simp [WithPackage, hv], ?_⟩
    simp only [WithPackage, hv, dite_true, tracedCallback]
    cases apply ctx ⟨v, hv⟩ s <;> rfl


/-- C4, witness: every adapter on a leaf of its own variant, counter starting at 10. -/
theorem adapters_forward_on_match_witness :
    (WithImport (addNarrowedPtr .Import) sampleCtx (.leaf .Import 1) 10 = .returned 11 ∧
      (WithImport (tracedCallback () (addNarrowedPtr .Import)) sampleCtx (.leaf .Import 1)
        (10, [])).state.2 = [⟨(), sampleCtx, .leaf .Import 1⟩]) ∧
    (WithMessage (addNarrowedPtr .Message) sampleCtx (.leaf .Message 2) 10 = .returned 12 ∧
      (WithMessage (tracedCallback () (addNarrowedPtr .Message)) sampleCtx (.leaf .Message 2)
        (10, [])).state.2 = [⟨(), sampleCtx, .leaf .Message 2⟩]) ∧
    (WithOption (addNarrowedPtr .Option) sampleCtx (.leaf .Option 3) 10 = .returned 13 ∧
      (WithOption (tracedCallback () (addNarrowedPtr .Option)) sampleCtx (.leaf .Option 3)
        (10, [])).state.2 = [⟨(), sampleCtx, .leaf .Option 3⟩]) ∧
    (WithEnum (addNarrowedPtr .Enum) sampleCtx (.leaf .Enum 4) 10 = .returned 14 ∧
      (WithEnum (tracedCallback () (addNarrowedPtr .Enum)) sampleCtx (.leaf .Enum 4)
        (10, [])).state.2 = [⟨(), sampleCtx, .leaf .Enum 4⟩]) ∧
    (WithOneof (addNarrowedPtr .Oneof) sampleCtx (.leaf .Oneof 5) 10 = .returned 15 ∧
      (WithOneof (tracedCallback () (addNarrowedPtr .Oneof)) sampleCtx (.leaf .Oneof 5)
        (10, [])).state.2 = [⟨(), sampleCtx, .leaf .Oneof 5⟩]) ∧
    (WithService (addNarrowedPtr .Service) sampleCtx (.leaf .Service 6) 10 = .returned 16 ∧
      (WithService (tracedCallback () (addNarrowedPtr .Service)) sampleCtx (.leaf .Service 6)
        (10, [])).state.2 = [⟨(), sampleCtx, .leaf .Service 6⟩]) ∧
    (WithRPC (addNarrowedPtr .RPC) sampleCtx (.leaf .RPC 7) 10 = .returned 17 ∧
      (WithRPC (tracedCallback () (addNarrowedPtr .RPC)) sampleCtx (.leaf .RPC 7)
        (10, [])).state.2 = [⟨(), sampleCtx, .leaf .RPC 7⟩]) ∧
    (WithPackage (addNarrowedPtr .Package) sampleCtx (.leaf .Package 8) 10 = .returned 18 ∧
      (WithPackage (tracedCallback () (addNarrowedPtr .Package)) sampleCtx (.leaf .Package 8)
        (10, [])).state.2 = [⟨(), sampleCtx, .leaf .Package 8⟩]) := by
  refine ⟨?_, ?_, ?_, ?_, ?_, ?_, ?_, ?_⟩
  · exact (adapters_forward_on_match sampleCtx 10 () []).1 (addNarrowedPtr .Import)
      (.leaf .Import 1) rfl
  · exact (adapters_forward_on_match sampleCtx 10 () []).2.1 (addNarrowedPtr .Message)
      (.leaf .Message 2) rfl
  · exact (adapters_forward_on_match sampleCtx 10 () []).2.2.1 (addNarrowedPtr .Option)
      (.leaf .Option 3) rfl
  · exact (adapters_forward_on_match sampleCtx 10 () []).2.2.2.1 (addNarrowedPtr .Enum)
      (.leaf .Enum 4) rfl
  · exact (adapters_forward_on_match sampleCtx 10 () []).2.2.2.2.1 (addNarrowedPtr .Oneof)
      (.leaf .Oneof 5) rfl
  · exact (adapters_forward_on_match sampleCtx 10 () []).2.2.2.2.2.1 (addNarrowedPtr .Service)
      (.leaf .Service 6) rfl
  · exact (adapters_forward_on_match sampleCtx 10 () []).2.2.2.2.2.2.1 (addNarrowedPtr .RPC)
      (.leaf .RPC 7) rfl
  · exact (adapters_forward_on_match sampleCtx 10 () []).2.2.2.2.2.2.2 (addNarrowedPtr .Package)
      (.leaf .Package 8) rfl

/-- C5: each of the eight typed adapters, invoked on a node of any variant other
than its target variant, makes no call to the wrapped callback and is a no-op:
it returns normally with the caller's state unchanged, and with a recording
callback the log is unchanged. -/
theorem adapters_noop_on_mismatch {α σ : Type} (ctx : Context) (s : σ) (label : α)
    (log : List (Call α)) :
    (∀ (apply : Callback .Import σ) (v : Visitee), v.variant ≠ .Import →
      WithImport apply ctx v s = .returned s ∧
      WithImport (tracedCallback label apply) ctx v (s, log) = .returned (s, log)) ∧
    (∀ (apply : Callback .Message σ) (v : Visitee), v.variant ≠ .Message →
      WithMessage apply ctx v s = .returned s ∧
      WithMessage (tracedCallback label apply) ctx v (s, log) = .returned (s, log)) ∧
    (∀ (apply : Callback .Option σ) (v : Visitee), v.variant ≠ .Option →
      WithOption apply ctx v s = .returned s ∧
      WithOption (tracedCallback label apply) ctx v (s, log) = .returned (s, log)) ∧
    (∀ (apply : Callback .Enum σ) (v : Visitee), v.variant ≠ .Enum →
      WithEnum apply ctx v s = .returned s ∧
      WithEnum (tracedCallback label apply) ctx v (s, log) = .returned (s, log)) ∧
    (∀ (apply : Callback .Oneof σ) (v : Visitee), v.variant ≠ .Oneof →
      WithOneof apply ctx v s = .returned s ∧
      WithOneof (tracedCallback label apply) ctx v (s, log) = .returned (s, log)) ∧
    (∀ (apply : Callback .Service σ) (v : Visitee), v.variant ≠ .Service →
      WithService apply ctx v s = .returned s ∧
      WithService (tracedCallback label apply) ctx v (s, log) = .returned (s, log)) ∧
    (∀ (apply : Callback .RPC σ) (v : Visitee), v.variant ≠ .RPC →
      WithRPC apply ctx v s = .returned s ∧
      WithRPC (tracedCallback label apply) ctx v (s, log) = .returned (s, log)) ∧
    (∀ (apply : Callback .Package σ) (v : Visitee), v.variant ≠ .Package →
      WithPackage apply ctx v s = .returned s ∧
      WithPackage (tracedCallback label apply) ctx v (s, log) = .returned (s, log)) := by
  refine ⟨?_, ?_, ?_, ?_, ?_, ?_, ?_, ?_⟩
  · intro apply v hv
    exact ⟨by simp [WithImport, hv], by simp [WithImport, hv]⟩
  · intro apply v hv
    exact ⟨by simp [WithMessage, hv], by simp [WithMessage, hv]⟩
  · intro apply v hv
    exact ⟨by simp [WithOption, hv], by simp [WithOption, hv]⟩
  · intro apply v hv
    exact ⟨by simp [WithEnum, hv], by simp [WithEnum, hv]⟩
  · intro apply v hv
    exact ⟨by simp [WithOneof, hv], by simp [WithOneof, hv]⟩
  · intro apply v hv
    exact ⟨by simp [WithService, hv], by simp [WithService, hv]⟩
  · intro apply v hv
    exact ⟨by simp [WithRPC, hv], by simp [WithRPC, hv]⟩
  · intro apply v hv
    exact ⟨by simp [WithPackage, hv], by simp [WithPackage, hv]⟩

/-- C5, witness: every adapter on a field node, which none of them targets. -/
theorem adapters_noop_on_mismatch_witness :
    (WithImport (addNarrowedPtr .Import) sampleCtx (.leaf .Field 9) 10 = .returned 10 ∧
      WithImport (tracedCallback () (addNarrowedPtr .Import)) sampleCtx (.leaf .Field 9) (10, []) =
        .returned (10, [])) ∧
    (WithMessage (addNarrowedPtr .Message) sampleCtx (.leaf .Field 9) 10 = .returned 10 ∧
      WithMessage (tracedCallback () (addNarrowedPtr .Message)) sampleCtx (.leaf .Field 9) (10, []) =
        .returned (10, [])) ∧
    (WithOption (addNarrowedPtr .Option) sampleCtx (.leaf .Field 9) 10 = .returned 10 ∧
      WithOption (tracedCallback () (addNarrowedPtr .Option)) sampleCtx (.leaf .Field 9) (10, []) =
        .returned (10, [])) ∧
    (WithEnum (addNarrowedPtr .Enum) sampleCtx (.leaf .Field 9) 10 = .returned 10 ∧
      WithEnum (tracedCallback () (addNarrowedPtr .Enum)) sampleCtx (.leaf .Field 9) (10, []) =
        .returned (10, [])) ∧
    (WithOneof (addNarrowedPtr .Oneof) sampleCtx (.leaf .Field 9) 10 = .returned 10 ∧
      WithOneof (tracedCallback () (addNarrowedPtr .Oneof)) sampleCtx (.leaf .Field 9) (10, []) =
        .returned (10, [])) ∧
    (WithService (addNarrowedPtr .Service) sampleCtx (.leaf .Field 9) 10 = .returned 10 ∧
      WithService (tracedCallback () (addNarrowedPtr .Service)) sampleCtx (.leaf .Field 9) (10, []) =
        .returned (10, [])) ∧
    (WithRPC (addNarrowedPtr .RPC) sampleCtx (.leaf .Field 9) 10 = .returned 10 ∧
      WithRPC (tracedCallback () (addNarrowedPtr .RPC)) sampleCtx (.leaf .Field 9) (10, []) =
        .returned (10, [])) ∧
    (WithPackage (addNarrowedPtr .Package) sampleCtx (.leaf .Field 9) 10 = .returned 10 ∧
      WithPackage (tracedCallback () (addNarrowedPtr .Package)) sampleCtx (.leaf .Field 9) (10, []) =
        .returned (10, [])) := by
  refine ⟨?_, ?_, ?_, ?_, ?_, ?_, ?_, ?_⟩
  · exact (adapters_noop_on_mismatch sampleCtx 10 () []).1 (addNarrowedPtr .Import)
      (.leaf .Field 9) (by decide)
  · exact (adapters_noop_on_mismatch sampleCtx 10 () []).2.1 (addNarrowedPtr .Message)
      (.leaf .Field 9) (by decide)
  · exact (adapters_noop_on_mismatch sampleCtx 10 () []).2.2.1 (addNarrowedPtr .Option)
      (.leaf .Field 9) (by decide)
  · exact (adapters_noop_on_mismatch sampleCtx 10 () []).2.2.2.1 (addNarrowedPtr .Enum)
      (.leaf .Field 9) (by decide)
  · exact (adapters_noop_on_mismatch sampleCtx 10 () []).2.2.2.2.1 (addNarrowedPtr .Oneof)
      (.leaf .Field 9) (by decide)
  · exact (adapters_noop_on_mismatch sampleCtx 10 () []).2.2.2.2.2.1 (addNarrowedPtr .Service)
      (.leaf .Field 9) (by decide)
  · exact (adapters_noop_on_mismatch sampleCtx 10 () []).2.2.2.2.2.2.1 (addNarrowedPtr .RPC)
      (.leaf .Field 9) (by decide)
  · exact (adapters_noop_on_mismatch sampleCtx 10 () []).2.2.2.2.2.2.2 (addNarrowedPtr .Package)
      (.leaf .Field 9) (by decide)

theorem adapter_traced_handler {α σ : Type} (label : α) (a : Adapter σ)
    (ctx : Context) (v : Visitee) (st : σ × List (Call α)) :
    (a.traced label).handler ctx v st =
      if v.variant = a.target then traced label a.handler ctx v st else .returned st := by
  cases a <;>
    simp only [Adapter.traced, Adapter.handler, Adapter.target, WithImport, WithMessage,
      WithOption, WithEnum, WithOneof, WithService, WithRPC, WithPackage, traced,
      tracedCallback] <;>
    split <;> rfl

theorem runCalls_adapters {α σ : Type} (cs : List (Call (α × Adapter σ)))
    (st : σ × List (Call α)) :
    runCalls (cs.map (Call.map (fun p => (p.2.traced p.1).handler))) st =
      runCalls
        ((cs.filter (fun c => decide (c.node.variant = c.handler.2.target))).map
          (Call.map (fun p => traced p.1 p.2.handler))) st := by
  induction cs generalizing st with
  | nil => rfl
  | cons c cs ih =>
    by_cases hc : c.node.variant = c.handler.2.target
    · simp only [List.map_cons, List.filter_cons, hc, decide_True, if_true, runCalls,
        Call.map, adapter_traced_handler]
      congr 1
      funext st1
      exact ih st1
    · simp only [List.map_cons, List.filter_cons, hc, decide_False, runCalls,
        Call.map, adapter_traced_handler, if_false, Outcome.andThen]
      exact ih st

theorem filter_callsOn_adapters {α σ : Type} (ctx : Context)
    (adapters : List (α × Adapter σ)) (ns : List Visitee) :
    ((callsOn ctx adapters ns).filter
        (fun c => decide (c.node.variant = c.handler.2.target))).map (Call.map Prod.fst) =
      matchingCalls ctx adapters ns := by
  induction ns with
  | nil => rfl
  | cons n ns ih =>
    rw [callsOn_cons, List.filter_append, List.map_append, ih]
    simp only [matchingCalls, List.flatMap_cons, List.filter_map, List.map_map]
    rfl

theorem callbackCalls_eq_madeCalls {α σ : Type} (ctx : Context) (proto : Proto)
    (adapters : List (α × Adapter σ)) (s : σ) :
    callbackCalls ctx proto adapters s =
      madeCalls
        (((callsOn ctx adapters proto.descendants).filter
          (fun c => decide (c.node.variant = c.handler.2.target))).map
          (Call.map (fun p => (p.1, p.2.handler)))) s := by
  unfold callbackCalls
  rw [Walk_eq_runCalls, callsOn_map, runCalls_adapters]
  have hmap : ∀ l : List (Call (α × Adapter σ)),
      l.map (Call.map (fun p => traced p.1 p.2.handler)) =
        (l.map (Call.map (fun p => (p.1, p.2.handler)))).map
          (Call.map (fun q => traced q.1 q.2)) := by
    intro l
    rw [List.map_map]
    rfl
  rw [hmap, runCalls_traced]
  cases runCalls _ s <;> simp [Outcome.mapState, Outcome.state]

/-- C6: with a handler list built from typed adapters whose callbacks return
normally, the sequence of wrapped-callback calls made during `Walk` is, for each
descendant of the root in pre-order, the callbacks of those adapters, in
handler-list order, whose target variant is the variant of the node.  For
root -> [M(message) -> [O(option), F(field)]] and handlers
[WithMessage(h1), WithOption(h2)], the walk is `h1(M)` followed by `h2(O)`, and
these two are the only callback calls. -/
theorem typed_Walk_callback_calls {α σ : Type} (ctx : Context) (s : σ) :
    (∀ (proto : Proto) (adapters : List (α × Adapter σ)),
      (∀ p ∈ adapters, ReturnsNormally p.2.handler) →
      callbackCalls ctx proto adapters s =
        matchingCalls ctx adapters proto.descendants) ∧
    (∀ (h1 : Callback .Message σ) (h2 : Callback .Option σ) (r m o f : Nat),
      Walk ctx ⟨r, [.container .Message m [.leaf .Option o, .leaf .Field f]]⟩
          [WithMessage h1, WithOption h2] s =
        (h1 ctx ⟨.container .Message m [.leaf .Option o, .leaf .Field f], rfl⟩ s).andThen
          (h2 ctx ⟨.leaf .Option o, rfl⟩)) ∧
    (∀ (h1 : Callback .Message σ) (h2 : Callback .Option σ) (l1 l2 : α) (r m o f : Nat),
      ReturnsNormally (WithMessage h1) → ReturnsNormally (WithOption h2) →
      callbackCalls ctx ⟨r, [.container .Message m [.leaf .Option o, .leaf .Field f]]⟩
          [(l1, .withMessage h1), (l2, .withOption h2)] s =
        [⟨l1, ctx, .container .Message m [.leaf .Option o, .leaf .Field f]⟩,
         ⟨l2, ctx, .leaf .Option o⟩]) := by
  have hgen : ∀ (proto : Proto) (adapters : List (α × Adapter σ)),
      (∀ p ∈ adapters, ReturnsNormally p.2.handler) →
      callbackCalls ctx proto adapters s =
        matchingCalls ctx adapters proto.descendants := by
    intro proto adapters hret
    rw [callbackCalls_eq_madeCalls, madeCalls_of_returns, List.map_map,
      ← filter_callsOn_adapters]
    · rfl
    · intro c hc
      obtain ⟨c1, hc1, rfl⟩ := List.mem_map.1 hc
      exact hret _ (mem_callsOn.1 (List.mem_filter.1 hc1).1).1
  refine ⟨hgen, ?_, ?_⟩
  · intro h1 h2 r m o f
    simp [Walk, walk, walkElement, callHandlers, WithMessage, WithOption,
      Visitee.variant, andThen_returned, andThen_returned_fun, returned_andThen,
      andThen_assoc]
  · intro h1 h2 l1 l2 r m o f hr1 hr2
    rw [hgen]
    · simp [matchingCalls, Proto.descendants, preorder, subtree, Visitee.variant,
        Adapter.target, List.filter]
    · intro p hp
      simp only [List.mem_cons, List.mem_singleton, List.not_mem_nil, or_false] at hp
      rcases hp with rfl | rfl
      · exact hr1
      · exact hr2

/-- C6, witness: the scenario root -> [M -> [O, F]] with
[WithMessage(h1), WithOption(h2)], both callbacks adding the node identity. -/
theorem typed_Walk_callback_calls_witness :
    ReturnsNormally (WithMessage (addNarrowedPtr .Message)) ∧
    ReturnsNormally (WithOption (addNarrowedPtr .Option)) ∧
    Walk sampleCtx sampleProto
        [WithMessage (addNarrowedPtr .Message), WithOption (addNarrowedPtr .Option)] 10 =
      .returned 13 ∧
    callbackCalls sampleCtx sampleProto
        [("h1", .withMessage (addNarrowedPtr .Message)),
         ("h2", .withOption (addNarrowedPtr .Option))] 10 =
      [⟨"h1", sampleCtx, .container .Message 1 [.leaf .Option 2, .leaf .Field 3]⟩,
       ⟨"h2", sampleCtx, .leaf .Option 2⟩] := by
  have hr1 : ReturnsNormally (WithMessage (addNarrowedPtr .Message)) := by
    intro ctx v s
    unfold WithMessage
    split
    · exact ⟨_, rfl⟩
    · exact ⟨_, rfl⟩
  have hr2 : ReturnsNormally (WithOption (addNarrowedPtr .Option)) := by
    intro ctx v s
    unfold WithOption
    split
    · exact ⟨_, rfl⟩
    · exact ⟨_, rfl⟩
  refine ⟨hr1, hr2, ?_, ?_⟩
  · rw [show sampleProto = ⟨0, [.container .Message 1 [.leaf .Option 2, .leaf .Field 3]]⟩
      from rfl, (@typed_Walk_callback_calls String Nat sampleCtx 10).2.1]
    rfl
  · exact (typed_Walk_callback_calls sampleCtx 10).2.2 _ _ "h1" "h2" 0 1 2 3 hr1 hr2

/-! ## Faults, empty inputs and handler order -/

theorem madeCalls_append_of_returned {α σ : Type} (a b : List (Call (α × Handler σ)))
    (s s1 : σ) (h : runCalls (a.map (Call.map Prod.snd)) s = .returned s1) :
    madeCalls (a ++ b) s = a.map (Call.map Prod.fst) ++ madeCalls b s1 := by
  induction a generalizing s with
  | nil =>
    simp only [List.map_nil, runCalls, Outcome.returned.injEq] at h
    subst h
    rfl
  | cons c a ih =>
    simp only [List.map_cons, runCalls, Call.map] at h
    cases hc : c.handler.2 c.ctx c.node s with
    | returned s2 =>
      rw [hc] at h
      have h2 := ih s2 h
      simp only [List.cons_append, madeCalls, hc, List.map_cons]
      exact congrArg (List.cons _) h2
    | panicked e s2 =>
      rw [hc] at h
      simp [Outcome.andThen] at h

theorem split_at_getElem {β : Type} {l : List β} {j : Nat} {c : β}
    (h : l[j]? = some c) :
    l = l.take j ++ c :: l.drop (j + 1) ∧ l.take (j + 1) = l.take j ++ [c] := by
  obtain ⟨hlt, rfl⟩ := List.getElem?_eq_some.1 h
  constructor
  · conv_lhs => rw [← List.take_append_drop j l, List.drop_eq_getElem_cons hlt]
  · rw [List.take_succ, h]
    rfl

theorem runCalls_panicked {σ : Type} (cs : List (Call (Handler σ))) (s : σ)
    (e : PanicValue) (sf : σ) (h : runCalls cs s = .panicked e sf) :
    ∃ j c sj, cs[j]? = some c ∧ runCalls (cs.take j) s = .returned sj ∧
      c.handler c.ctx c.node sj = .panicked e sf := by
  induction cs generalizing s with
  | nil => simp [runCalls] at h
  | cons c cs ih =>
    simp only [runCalls] at h
    cases hc : c.handler c.ctx c.node s with
    | returned s1 =>
      rw [hc] at h
      obtain ⟨j, c1, sj, h1, h2, h3⟩ := ih s1 h
      refine ⟨j + 1, c1, sj, by simpa using h1, ?_, h3⟩
      simp only [List.take_succ_cons, runCalls, hc]
      exact h2
    | panicked e1 s1 =>
      rw [hc] at h
      simp only [Outcome.andThen, Outcome.panicked.injEq] at h
      obtain ⟨rfl, rfl⟩ := h
      exact ⟨0, c, s, by simp, rfl, hc⟩

/-- C7: a fault is not caught.  If the first `j` calls of the reference listing
return normally and the next call `c` panics, then `Walk` panics with the same
value and state, and the invocations made are exactly the first `j + 1` entries
of the fault-free invocation sequence, the faulting call being the last: the
remaining handlers for that node, its descendants and its later siblings are
not called.  Conversely `Walk` panics only in this way: it has no fault of its
own. -/
theorem Walk_fault_propagates {α σ : Type} (ctx : Context) (proto : Proto)
    (hs : List (α × Handler σ)) (s : σ) (e : PanicValue) (sf : σ) :
    (∀ (j : Nat) (c : Call (α × Handler σ)) (sj : σ),
      (callsOn ctx hs proto.descendants)[j]? = some c →
      runCalls (((callsOn ctx hs proto.descendants).take j).map (Call.map Prod.snd)) s =
        .returned sj →
      c.handler.2 c.ctx c.node sj = .panicked e sf →
      Walk ctx proto (hs.map Prod.snd) s = .panicked e sf ∧
      invocations ctx proto hs s =
        (callsOn ctx (hs.map Prod.fst) proto.descendants).take (j + 1) ∧
      (invocations ctx proto hs s).getLast? = some ⟨c.handler.1, c.ctx, c.node⟩) ∧
    (Walk ctx proto (hs.map Prod.snd) s = .panicked e sf →
      ∃ (j : Nat) (c : Call (α × Handler σ)) (sj : σ),
        (callsOn ctx hs proto.descendants)[j]? = some c ∧
        runCalls (((callsOn ctx hs proto.descendants).take j).map (Call.map Prod.snd)) s =
          .returned sj ∧
        c.handler.2 c.ctx c.node sj = .panicked e sf) := by
  constructor
  · intro j c sj hj hbefore hfault
    obtain ⟨hsplit, htake⟩ := split_at_getElem hj
    have hinv : invocations ctx proto hs s =
        ((callsOn ctx hs proto.descendants).take j).map (Call.map Prod.fst) ++
          [⟨c.handler.1, c.ctx, c.node⟩] := by
      rw [invocations_eq_madeCalls]
      conv_lhs => rw [hsplit]
      rw [madeCalls_append_of_returned _ _ s sj hbefore]
      simp [madeCalls, hfault]
    refine ⟨?_, ?_, ?_⟩
    · rw [Walk_eq_runCalls, callsOn_map]
      conv_lhs => rw [hsplit]
      rw [List.map_append, runCalls_append, hbefore]
      simp [Outcome.andThen, runCalls, Call.map, hfault]
    · rw [hinv, callsOn_map, ← List.map_take, htake, List.map_append]
      rfl
    · rw [hinv]
      simp
  · intro hw
    rw [Walk_eq_runCalls, callsOn_map] at hw
    obtain ⟨j, c1, sj, h1, h2, h3⟩ := runCalls_panicked _ s e sf hw
    rw [List.getElem?_map] at h1
    cases hc : (callsOn ctx hs proto.descendants)[j]? with
    | none => simp [hc] at h1
    | some c =>
      have hc1 : c1 = Call.map Prod.snd c := by
        rw [hc] at h1
        simpa using h1.symm
      subst hc1
      rw [← List.map_take] at h2
      exact ⟨j, c, sj, hc, h2, h3⟩

/-- C7, witness: on root -> [M -> [O, F]] with handlers a = `addPtr` and
b = `panicOn 2`, the fourth call b(O) panics; F is never visited. -/
theorem Walk_fault_propagates_witness :
    Walk sampleCtx sampleProto [addPtr, panicOn 2] 0 = .panicked 99 4 ∧
    invocations sampleCtx sampleProto [("a", addPtr), ("b", panicOn 2)] 0 =
      [⟨"a", sampleCtx, .container .Message 1 [.leaf .Option 2, .leaf .Field 3]⟩,
       ⟨"b", sampleCtx, .container .Message 1 [.leaf .Option 2, .leaf .Field 3]⟩,
       ⟨"a", sampleCtx, .leaf .Option 2⟩, ⟨"b", sampleCtx, .leaf .Option 2⟩] := by
  have h := (Walk_fault_propagates sampleCtx sampleProto [("a", addPtr), ("b", panicOn 2)]
    0 99 4).1 3 ⟨("b", panicOn 2), sampleCtx, .leaf .Option 2⟩ 4 rfl rfl rfl
  exact ⟨h.1, h.2.1⟩

/-- C8: on a root with zero children, `Walk` with any handler list, of any
length, makes zero handler invocations and returns with the caller's state
unchanged. -/
theorem Walk_empty_root {α σ : Type} (ctx : Context) (ptr : Nat)
    (hs : List (α × Handler σ)) (s : σ) :
    Walk ctx ⟨ptr, []⟩ (hs.map Prod.snd) s = .returned s ∧
    invocations ctx ⟨ptr, []⟩ hs s = [] := by
  constructor
  · rfl
  · rfl

theorem walkCount_fst {σ : Type} (ctx : Context) (hs : List (Handler σ)) :
    ∀ (l : List Visitee) (s : σ), (walkCount ctx hs l s).1 = walk ctx hs l s
  | [], s => by simp [walkCount, walk]
  | .leaf t p :: rest, s => by
    simp only [walkCount, walkElementCount, walk, walkElement, andThenCount]
    cases callHandlers ctx (.leaf t p) hs s with
    | returned s1 => simpa [Outcome.andThen] using walkCount_fst ctx hs rest s1
    | panicked e s1 => rfl
  | .container t p els :: rest, s => by
    simp only [walkCount, walkElementCount, walk, walkElement, andThenCount]
    cases callHandlers ctx (.container t p els) hs s with
    | returned s1 =>
      simp only [Outcome.andThen]
      rw [walkCount_fst ctx hs els s1]
      cases walk ctx hs els s1 with
      | returned s2 => simpa using walkCount_fst ctx hs rest s2
      | panicked e s2 => rfl
    | panicked e s1 => rfl

mutual
theorem walkElementCount_nil {σ : Type} (ctx : Context) :
    ∀ (e : Visitee) (s : σ),
      walkElementCount ctx [] e s = (.returned s, (subtree e).length)
  | .leaf t p, s => by simp [walkElementCount, callHandlers, subtree]
  | .container t p els, s => by
    simp only [walkElementCount, callHandlers, andThenCount, subtree, List.length_cons,
      walkCount_nil ctx els s]
    rw [Nat.add_comm]
theorem walkCount_nil {σ : Type} (ctx : Context) :
    ∀ (l : List Visitee) (s : σ),
      walkCount ctx [] l s = (.returned s, (preorder l).length)
  | [], s => by simp [walkCount, preorder]
  | e :: rest, s => by
    simp only [walkCount, andThenCount, preorder, List.length_append,
      walkElementCount_nil ctx e s, walkCount_nil ctx rest s]
end

/-- C9: with an empty handler list `Walk` completes normally on every finite
tree, makes no handler invocation and leaves the caller's state unchanged;
it still recurses through the whole tree: the outer loop of `walk` runs once
for every descendant of the root. -/
theorem Walk_no_handlers {α σ : Type} (ctx : Context) (proto : Proto) (s : σ) :
    Walk ctx proto [] s = .returned s ∧
    invocations ctx proto ([] : List (α × Handler σ)) s = [] ∧
    walkCount ctx ([] : List (Handler σ)) proto.Elements s =
      (Walk ctx proto [] s, proto.descendants.length) := by
  have h1 : Walk ctx proto [] s = .returned s := by
    rw [Walk_eq_runCalls]
    have : callsOn ctx ([] : List (Handler σ)) proto.descendants = [] := by
      simp [callsOn]
    rw [this]
    rfl
  refine ⟨h1, ?_, ?_⟩
  · rw [invocations_eq_madeCalls]
    have : callsOn ctx ([] : List (α × Handler σ)) proto.descendants = [] := by
      simp [callsOn]
    rw [this]
    rfl
  · rw [h1, walkCount_nil]
    rfl

theorem blocks_flatMap {β γ : Type} (k : Nat) (hk : 0 < k) (f : γ → List β)
    (hf : ∀ n, (f n).length = k) (ns : List γ) :
    blocks k (ns.flatMap f) = ns.map f := by
  induction ns with
  | nil => simp [blocks]
  | cons n ns ih =>
    have hlen : ((n :: ns).flatMap f).length / k = (ns.flatMap f).length / k + 1 := by
      rw [List.flatMap_cons, List.length_append, hf n, Nat.add_comm,
        Nat.add_div_right _ hk]
    unfold blocks at ih ⊢
    rw [hlen, List.range_succ_eq_map, List.map_cons, List.map_map, List.map_cons, ← ih]
    congr 1
    · rw [List.flatMap_cons, Nat.zero_mul, List.drop_zero, ← hf n, List.take_left]
    · apply List.map_congr_left
      intro j _
      simp only [Function.comp, Nat.succ_eq_add_one, List.flatMap_cons]
      have hjk : (j + 1) * k = (f n).length + j * k := by
        rw [hf n]
        ring
      rw [hjk, List.drop_append]

theorem blocks_callsOn {α : Type} (ctx : Context) (ls : List α) (hne : ls ≠ [])
    (ns : List Visitee) :
    blocks ls.length (callsOn ctx ls ns) =
      ns.map (fun n => ls.map (fun l => (⟨l, ctx, n⟩ : Call α))) := by
  unfold callsOn
  exact blocks_flatMap ls.length (List.length_pos.2 hne) _ (fun n => by simp) ns

theorem visitedNodes_callsOn {α : Type} (ctx : Context) (ls : List α) (hne : ls ≠ [])
    (ns : List Visitee) :
    visitedNodes ls.length (callsOn ctx ls ns) = ns := by
  unfold visitedNodes
  rw [blocks_callsOn ctx ls hne]
  cases ls with
  | nil => exact absurd rfl hne
  | cons l ls =>
    induction ns with
    | nil => rfl
    | cons n ns ih =>
      rw [List.map_cons, List.filterMap_cons]
      simp only [List.map_cons, List.head?_cons, Option.map_some'] at ih ⊢
      rw [ih]

theorem visitedNodes_nil_handlers {α : Type} (calls : List (Call α)) :
    visitedNodes 0 calls = [] := by
  simp [visitedNodes, blocks]

/-- C10: for two handler lists that are permutations of each other (handlers
returning normally), the sequence of visited nodes is the same (and, for a
non-empty list, is the pre-order listing of the descendants), and the two
invocation sequences contain the same (handler, node) calls; when the second
list is the reverse of the first, the block of calls made on each node is the
reverse of the corresponding block of the first walk. -/
theorem Walk_handler_order {α σ : Type} (ctx : Context) (proto : Proto)
    (hs1 hs2 : List (α × Handler σ)) (s : σ)
    (hperm : hs1.Perm hs2) (hret : ∀ p ∈ hs1, ReturnsNormally p.2) :
    visitedNodes hs1.length (invocations ctx proto hs1 s) =
      visitedNodes hs2.length (invocations ctx proto hs2 s) ∧
    (hs1 ≠ [] →
      visitedNodes hs1.length (invocations ctx proto hs1 s) = proto.descendants) ∧
    (invocations ctx proto hs1 s).Perm (invocations ctx proto hs2 s) ∧
    (∀ c, c ∈ invocations ctx proto hs1 s ↔ c ∈ invocations ctx proto hs2 s) ∧
    (hs2 = hs1.reverse →
      blocks hs2.length (invocations ctx proto hs2 s) =
        (blocks hs1.length (invocations ctx proto hs1 s)).map List.reverse) := by
  have hret2 : ∀ p ∈ hs2, ReturnsNormally p.2 := fun p hp => hret p (hperm.mem_iff.2 hp)
  have h1 := invocations_of_returns ctx proto hs1 hret s
  have h2 := invocations_of_returns ctx proto hs2 hret2 s
  have hvis : ∀ hs : List (α × Handler σ), hs ≠ [] →
      visitedNodes hs.length (callsOn ctx (hs.map Prod.fst) proto.descendants) =
        proto.descendants := by
    intro hs hne
    have := visitedNodes_callsOn ctx (hs.map Prod.fst) (by simpa using hne)
      proto.descendants
    simpa using this
  have hP : (invocations ctx proto hs1 s).Perm (invocations ctx proto hs2 s) := by
    rw [h1, h2]
    exact List.Perm.flatMap_left _ (fun n _ => (hperm.map Prod.fst).map _)
  refine ⟨?_, ?_, hP, fun c => hP.mem_iff, ?_⟩
  · by_cases hne : hs1 = []
    · subst hne
      have : hs2 = [] := List.Perm.nil_eq hperm |>.symm
      subst this
      rfl
    · have hne2 : hs2 ≠ [] := fun h => hne (by subst h; exact hperm.eq_nil)
      rw [h1, h2, hvis hs1 hne, hvis hs2 hne2]
  · intro hne
    rw [h1, hvis hs1 hne]
  · intro hrev
    by_cases hne : hs1 = []
    · subst hne
      subst hrev
      simp [blocks]
    · have hne2 : hs2 ≠ [] := fun h => hne (by subst h; exact hperm.eq_nil)
      have b1 := blocks_callsOn ctx (hs1.map Prod.fst) (by simpa using hne)
        proto.descendants
      have b2 := blocks_callsOn ctx (hs2.map Prod.fst) (by simpa using hne2)
        proto.descendants
      rw [List.length_map] at b1 b2
      rw [h1, h2, b1, b2, List.map_map, hrev]
      apply List.map_congr_left
      intro n _
      simp only [Function.comp, List.map_reverse]

/-- C10, witness: the handler lists [a, b] and [b, a] on root -> [M -> [O, F]]. -/
theorem Walk_handler_order_witness :
    [("a", addPtr), ("b", double)].Perm [("b", double), ("a", addPtr)] ∧
    (∀ p ∈ [("a", addPtr), ("b", double)], ReturnsNormally p.2) ∧
    visitedNodes 2 (invocations sampleCtx sampleProto [("b", double), ("a", addPtr)] 0) =
      sampleProto.descendants ∧
    blocks 2 (invocations sampleCtx sampleProto [("b", double), ("a", addPtr)] 0) =
      (blocks 2 (invocations sampleCtx sampleProto [("a", addPtr), ("b", double)] 0)).map
        List.reverse := by
  have hperm : [("a", addPtr), ("b", double)].Perm [("b", double), ("a", addPtr)] :=
    List.Perm.swap _ _ []
  have hret : ∀ p ∈ [("a", addPtr), ("b", double)], ReturnsNormally p.2 := by
    intro p hp
    simp only [List.mem_cons, List.mem_singleton, List.not_mem_nil, or_false] at hp
    rcases hp with rfl | rfl <;> exact fun _ _ _ => ⟨_, rfl⟩
  have h := Walk_handler_order sampleCtx sampleProto _ _ 0 hperm hret
  refine ⟨hperm, hret, ?_, h.2.2.2.2 rfl⟩
  exact h.1.symm.trans (h.2.1 (by simp))

/-! ## Context, ordering and termination -/

theorem runCalls_callsOn_cons {σ : Type} (ctx : Context) (hs : List (Handler σ))
    (n : Visitee) (ns : List Visitee) (s : σ) :
    runCalls (callsOn ctx hs (n :: ns)) s =
      (callHandlers ctx n hs s).andThen (runCalls (callsOn ctx hs ns)) := by
  rw [callsOn_cons, runCalls_append, callHandlers_eq_runCalls]

theorem callHandlers_congr_ctx {α σ : Type} (ctx1 ctx2 : Context) (v : Visitee)
    (hs : List (α × Handler σ))
    (hagree : ∀ p ∈ hs, ∀ (n : Visitee) (s1 : σ), p.2 ctx1 n s1 = p.2 ctx2 n s1) (s : σ) :
    callHandlers ctx1 v (hs.map Prod.snd) s = callHandlers ctx2 v (hs.map Prod.snd) s := by
  induction hs generalizing s with
  | nil => rfl
  | cons p hs ih =>
    simp only [List.map_cons, callHandlers]
    rw [hagree p (List.mem_cons_self _ _) v s]
    congr 1
    funext s1
    exact ih (fun q hq => hagree q (List.mem_cons_of_mem _ hq)) s1

theorem map_handler_node_callsOn {α : Type} (ctx1 ctx2 : Context) (ls : List α)
    (ns : List Visitee) :
    (callsOn ctx1 ls ns).map (fun c => (c.handler, c.node)) =
      (callsOn ctx2 ls ns).map (fun c => (c.handler, c.node)) := by
  induction ns with
  | nil => rfl
  | cons n ns ih =>
    rw [callsOn_cons, callsOn_cons, List.map_append, List.map_append, ih, List.map_map,
      List.map_map]
    rfl

/-- C11: the context is a carrier only.  Every handler invocation made by `Walk`
receives exactly the context passed to `Walk`.  For handlers that return
normally the sequence of (handler, node) invocations and the sequence of
visited nodes are the same under any two contexts, for instance a cancelled and
a live one, and under every context all calls on all descendants are made: the
engine never stops early on its own.  If the handlers do not distinguish the
two contexts, the whole outcome of `Walk` is the same. -/
theorem Walk_context_is_carrier {α σ : Type} (ctx1 ctx2 : Context) (proto : Proto)
    (hs : List (α × Handler σ)) (s : σ) :
    (∀ c ∈ invocations ctx1 proto hs s, c.ctx = ctx1) ∧
    ((∀ p ∈ hs, ReturnsNormally p.2) →
      (invocations ctx1 proto hs s).map (fun c => (c.handler, c.node)) =
        (invocations ctx2 proto hs s).map (fun c => (c.handler, c.node)) ∧
      visitedNodes hs.length (invocations ctx1 proto hs s) =
        visitedNodes hs.length (invocations ctx2 proto hs s) ∧
      (invocations ctx1 proto hs s).length = hs.length * proto.descendants.length) ∧
    ((∀ p ∈ hs, ∀ (n : Visitee) (s1 : σ), p.2 ctx1 n s1 = p.2 ctx2 n s1) →
      Walk ctx1 proto (hs.map Prod.snd) s = Walk ctx2 proto (hs.map Prod.snd) s) := by
  refine ⟨fun c hc => (mem_invocations hc).2.1, ?_, ?_⟩
  · intro hret
    have h1 := invocations_of_returns ctx1 proto hs hret s
    have h2 := invocations_of_returns ctx2 proto hs hret s
    refine ⟨?_, ?_, ?_⟩
    · rw [h1, h2]
      exact map_handler_node_callsOn ctx1 ctx2 _ _
    · by_cases hne : hs = []
      · subst hne
        rw [List.length_nil, visitedNodes_nil_handlers, visitedNodes_nil_handlers]
      · have hne1 : hs.map Prod.fst ≠ [] := by simpa using hne
        have v1 := visitedNodes_callsOn ctx1 (hs.map Prod.fst) hne1 proto.descendants
        have v2 := visitedNodes_callsOn ctx2 (hs.map Prod.fst) hne1 proto.descendants
        rw [List.length_map] at v1 v2
        rw [h1, h2, v1, v2]
    · rw [h1, length_callsOn, List.length_map]
  · intro hagree
    rw [Walk_eq_runCalls, Walk_eq_runCalls]
    generalize proto.descendants = ns
    induction ns generalizing s with
    | nil => rfl
    | cons n ns ih =>
      rw [runCalls_callsOn_cons, runCalls_callsOn_cons,
        callHandlers_congr_ctx ctx1 ctx2 n hs hagree s]
      congr 1
      funext s1
      exact ih s1

/-- C11, witness: the sample tree walked under a cancelled and under a live
context with a handler that reads the context; the final states differ, the
visited nodes do not. -/
theorem Walk_context_is_carrier_witness :
    (∀ p ∈ [("a", addIfLive), ("b", double)], ReturnsNormally p.2) ∧
    Walk cancelledCtx sampleProto [addIfLive, double] 1 = .returned 8 ∧
    Walk sampleCtx sampleProto [addIfLive, double] 1 = .returned 30 ∧
    (invocations cancelledCtx sampleProto [("a", addIfLive), ("b", double)] 1).map
        (fun c => (c.handler, c.node)) =
      (invocations sampleCtx sampleProto [("a", addIfLive), ("b", double)] 1).map
        (fun c => (c.handler, c.node)) ∧
    (invocations cancelledCtx sampleProto [("a", addIfLive), ("b", double)] 1).length =
      6 := by
  have hret : ∀ p ∈ [("a", addIfLive), ("b", double)], ReturnsNormally p.2 := by
    intro p hp
    simp only [List.mem_cons, List.mem_singleton, List.not_mem_nil, or_false] at hp
    rcases hp with rfl | rfl
    · intro ctx v s
      simp only [addIfLive]
      split
      · exact ⟨_, rfl⟩
      · exact ⟨_, rfl⟩
    · exact fun _ _ _ => ⟨_, rfl⟩
  have h := (Walk_context_is_carrier cancelledCtx sampleCtx sampleProto
    [("a", addIfLive), ("b", double)] 1).2.1 hret
  exact ⟨hret, rfl, rfl, h.1, h.2.2⟩

theorem subtree_eq_cons (v : Visitee) : subtree v = v :: v.descendants := by
  cases v <;> simp [subtree, Visitee.descendants, Visitee.asContainer]

theorem preorder_cons (v : Visitee) (l : List Visitee) :
    preorder (v :: l) = subtree v ++ preorder l := by
  simp [preorder]

theorem preorder_append (a b : List Visitee) :
    preorder (a ++ b) = preorder a ++ preorder b := by
  induction a with
  | nil => simp [preorder]
  | cons v a ih => simp [preorder_cons, ih]

theorem mem_preorder_of_mem_subtree {l : List Visitee} {a x : Visitee}
    (ha : a ∈ l) (hx : x ∈ subtree a) : x ∈ preorder l := by
  induction l with
  | nil => simp at ha
  | cons v l ih =>
    rw [preorder_cons, List.mem_append]
    rcases List.mem_cons.1 ha with rfl | h
    · exact Or.inl hx
    · exact Or.inr (ih h)

mutual
theorem subtree_split : ∀ (v n : Visitee), n ∈ subtree v →
    ∃ A B, subtree v = A ++ subtree n ++ B
  | .leaf t p, n, h => by
    simp only [subtree, List.mem_singleton] at h
    subst h
    exact ⟨[], [], by simp⟩
  | .container t p els, n, h => by
    simp only [subtree, List.mem_cons] at h
    rcases h with rfl | h
    · exact ⟨[], [], by simp⟩
    · obtain ⟨A, B, hAB⟩ := preorder_split els n h
      exact ⟨.container t p els :: A, B, by simp [subtree, hAB]⟩
theorem preorder_split : ∀ (l : List Visitee) (n : Visitee), n ∈ preorder l →
    ∃ A B, preorder l = A ++ subtree n ++ B
  | [], n, h => by simp [preorder] at h
  | v :: rest, n, h => by
    rw [preorder_cons, List.mem_append] at h
    rcases h with h | h
    · obtain ⟨A, B, hAB⟩ := subtree_split v n h
      exact ⟨A, B ++ preorder rest, by simp [preorder_cons, hAB]⟩
    · obtain ⟨A, B, hAB⟩ := preorder_split rest n h
      exact ⟨subtree v ++ A, B, by simp [preorder_cons, hAB]⟩
end

theorem allBefore_of_split {β : Type} {p q : β → Prop} (P Q : List β)
    (hP : ∀ y ∈ P, ¬ q y) (hQ : ∀ x ∈ Q, ¬ p x) : AllBefore p q (P ++ Q) := by
  intro i j x y hi hj hpx hqy
  have hi1 : i < P.length := by
    by_contra hge
    rw [List.getElem?_append_right (Nat.le_of_not_lt hge)] at hi
    exact hQ x (List.getElem?_mem hi) hpx
  have hj1 : P.length ≤ j := by
    by_contra hlt
    rw [List.getElem?_append_left (Nat.lt_of_not_le hlt)] at hj
    exact hP y (List.getElem?_mem hj) hqy
  exact Nat.lt_of_lt_of_le hi1 hj1

theorem allBefore_of_append {β : Type} {p q : β → Prop} (l t : List β)
    (h : AllBefore p q (l ++ t)) : AllBefore p q l := by
  intro i j x y hi hj hpx hqy
  have hil : i < l.length := by
    by_contra hge
    rw [List.getElem?_eq_none (Nat.le_of_not_lt hge)] at hi
    exact Option.noConfusion hi
  have hjl : j < l.length := by
    by_contra hge
    rw [List.getElem?_eq_none (Nat.le_of_not_lt hge)] at hj
    exact Option.noConfusion hj
  apply h i j x y _ _ hpx hqy
  · rw [List.getElem?_append_left hil]
    exact hi
  · rw [List.getElem?_append_left hjl]
    exact hj

theorem allBefore_callsOn {α : Type} (ctx : Context) (ls : List α)
    (U V : List Visitee) (hd : ((U ++ V).map Visitee.ptr).Nodup)
    (x y : Visitee) (hx : x ∈ U) (hy : y ∈ V) :
    AllBefore (fun c : Call α => c.node.ptr = x.ptr) (fun c => c.node.ptr = y.ptr)
      (callsOn ctx ls (U ++ V)) := by
  rw [List.map_append, List.nodup_append] at hd
  have hdis := hd.2.2
  rw [callsOn_append]
  apply allBefore_of_split
  · intro c hc hcy
    have hcU := (mem_callsOn.1 hc).2.2
    exact hdis (List.mem_map_of_mem _ hcU) (hcy ▸ List.mem_map_of_mem _ hy)
  · intro c hc hcx
    have hcV := (mem_callsOn.1 hc).2.2
    exact hdis (hcx ▸ List.mem_map_of_mem _ hx) (List.mem_map_of_mem _ hcV)

theorem madeCalls_append_rest {α σ : Type} (cs : List (Call (α × Handler σ))) (s : σ) :
    ∃ t, madeCalls cs s ++ t = cs.map (Call.map Prod.fst) := by
  induction cs generalizing s with
  | nil => exact ⟨[], rfl⟩
  | cons c cs ih =>
    simp only [madeCalls, List.map_cons]
    cases c.handler.2 c.ctx c.node s with
    | returned s1 =>
      obtain ⟨t, ht⟩ := ih s1
      exact ⟨t, by simp only [List.cons_append, ht]; rfl⟩
    | panicked e s1 =>
      exact ⟨cs.map (Call.map Prod.fst), rfl⟩

theorem invocations_append_rest {α σ : Type} (ctx : Context) (proto : Proto)
    (hs : List (α × Handler σ)) (s : σ) :
    ∃ t, invocations ctx proto hs s ++ t =
      callsOn ctx (hs.map Prod.fst) proto.descendants := by
  obtain ⟨t, ht⟩ := madeCalls_append_rest (callsOn ctx hs proto.descendants) s
  exact ⟨t, by rw [invocations_eq_madeCalls, ht, callsOn_map]⟩

theorem allBefore_invocations {α σ : Type} (ctx : Context) (proto : Proto)
    (hs : List (α × Handler σ)) (s : σ) (U V : List Visitee)
    (hsplit : proto.descendants = U ++ V)
    (hd : (proto.descendants.map Visitee.ptr).Nodup)
    (x y : Visitee) (hx : x ∈ U) (hy : y ∈ V) :
    AllBefore (fun c : Call α => c.node.ptr = x.ptr) (fun c => c.node.ptr = y.ptr)
      (invocations ctx proto hs s) := by
  obtain ⟨t, ht⟩ := invocations_append_rest ctx proto hs s
  apply allBefore_of_append _ t
  rw [ht, hsplit]
  rw [hsplit] at hd
  exact allBefore_callsOn ctx _ U V hd x y hx hy

/-- C12: on a tree with pairwise distinct nodes, for every handler list, every
call on a node `n` stands in the invocation sequence before every call on any
proper descendant `d` of `n`. -/
theorem Walk_node_before_descendants {α σ : Type} (ctx : Context) (proto : Proto)
    (hs : List (α × Handler σ)) (s : σ)
    (hdistinct : (proto.descendants.map Visitee.ptr).Nodup)
    (n d : Visitee) (hn : n ∈ proto.descendants) (hd : d ∈ n.descendants) :
    ∀ (i j : Nat) (c1 c2 : Call α),
      (invocations ctx proto hs s)[i]? = some c1 →
      (invocations ctx proto hs s)[j]? = some c2 →
      c1.node.ptr = n.ptr → c2.node.ptr = d.ptr → i < j := by
  obtain ⟨A, B, hAB⟩ := preorder_split proto.Elements n hn
  have hsplit : proto.descendants = (A ++ [n]) ++ (n.descendants ++ B) := by
    unfold Proto.descendants
    rw [hAB, subtree_eq_cons]
    simp
  exact allBefore_invocations ctx proto hs s _ _ hsplit hdistinct n d
    (by simp) (List.mem_append_left _ hd)

/-- C12, witness: in the sample tree the calls on M precede the calls on its
child O; here the second call (on M) and the third (on O). -/
theorem Walk_node_before_descendants_witness :
    (sampleProto.descendants.map Visitee.ptr).Nodup ∧
    (invocations sampleCtx sampleProto [("a", addPtr), ("b", double)] 0)[1]? =
      some ⟨"b", sampleCtx, .container .Message 1 [.leaf .Option 2, .leaf .Field 3]⟩ ∧
    (invocations sampleCtx sampleProto [("a", addPtr), ("b", double)] 0)[2]? =
      some ⟨"a", sampleCtx, .leaf .Option 2⟩ ∧
    ∀ (i j : Nat) (c1 c2 : Call String),
      (invocations sampleCtx sampleProto [("a", addPtr), ("b", double)] 0)[i]? = some c1 →
      (invocations sampleCtx sampleProto [("a", addPtr), ("b", double)] 0)[j]? = some c2 →
      c1.node.ptr = 1 → c2.node.ptr = 2 → i < j := by
  have hd : (sampleProto.descendants.map Visitee.ptr).Nodup := by decide
  refine ⟨hd, rfl, rfl, ?_⟩
  exact Walk_node_before_descendants sampleCtx sampleProto [("a", addPtr), ("b", double)] 0
    hd (.container .Message 1 [.leaf .Option 2, .leaf .Field 3]) (.leaf .Option 2)
    (by simp [sampleProto, Proto.descendants, preorder, subtree])
    (by simp [Visitee.descendants, Visitee.asContainer, preorder, subtree])

theorem preorder_split_container (proto : Proto) (els : List Visitee)
    (hc : els = proto.Elements ∨ ∃ c ∈ proto.descendants, c.asContainer = some els) :
    ∃ X Z, proto.descendants = X ++ preorder els ++ Z := by
  rcases hc with rfl | ⟨c, hc, hels⟩
  · exact ⟨[], [], by simp [Proto.descendants]⟩
  · obtain ⟨A, B, hAB⟩ := preorder_split proto.Elements c hc
    refine ⟨A ++ [c], B, ?_⟩
    unfold Proto.descendants
    rw [hAB, subtree_eq_cons]
    simp [Visitee.descendants, hels]

/-- C13: on a tree with pairwise distinct nodes, if `a` is stored before `b` in
the child sequence `els` of one container (the root or any container below
it), then every call on `a` or on a descendant of `a` stands in the
invocation sequence before every call on `b` or on a descendant of `b`.  This
holds for every handler list, the non-empty ones in particular. -/
theorem Walk_subtree_before_next_sibling {α σ : Type} (ctx : Context) (proto : Proto)
    (hs : List (α × Handler σ)) (s : σ)
    (hdistinct : (proto.descendants.map Visitee.ptr).Nodup)
    (els : List Visitee)
    (hc : els = proto.Elements ∨ ∃ c ∈ proto.descendants, c.asContainer = some els)
    (ia ib : Nat) (a b : Visitee) (ha : els[ia]? = some a) (hb : els[ib]? = some b)
    (hab : ia < ib) (x y : Visitee) (hx : x ∈ subtree a) (hy : y ∈ subtree b) :
    ∀ (i j : Nat) (c1 c2 : Call α),
      (invocations ctx proto hs s)[i]? = some c1 →
      (invocations ctx proto hs s)[j]? = some c2 →
      c1.node.ptr = x.ptr → c2.node.ptr = y.ptr → i < j := by
  obtain ⟨X, Z, hXZ⟩ := preorder_split_container proto els hc
  obtain ⟨hsplit, _⟩ := split_at_getElem hb
  have hels : preorder els =
      preorder (els.take ib) ++ (subtree b ++ preorder (els.drop (ib + 1))) := by
    conv_lhs => rw [hsplit]
    rw [preorder_append, preorder_cons]
  have hdesc : proto.descendants =
      (X ++ preorder (els.take ib)) ++ (subtree b ++ preorder (els.drop (ib + 1)) ++ Z) := by
    rw [hXZ, hels]
    simp
  have hain : a ∈ els.take ib := by
    exact List.getElem?_mem ((List.getElem?_take_of_lt hab).trans ha)
  exact allBefore_invocations ctx proto hs s _ _ hdesc hdistinct x y
    (List.mem_append_right _ (mem_preorder_of_mem_subtree hain hx))
    (List.mem_append_left _ (List.mem_append_left _ hy))

/-- C13, witness: in root -> [S -> [R -> [O]], M -> [F]] every call on O, a
descendant of the first child S, precedes every call on M, the second child. -/
theorem Walk_subtree_before_next_sibling_witness :
    (siblingProto.descendants.map Visitee.ptr).Nodup ∧
    (invocations sampleCtx siblingProto [("a", addPtr), ("b", double)] 0).map
        (fun c => (c.handler, c.node.ptr)) =
      [("a", 1), ("b", 1), ("a", 2), ("b", 2), ("a", 3), ("b", 3),
       ("a", 4), ("b", 4), ("a", 5), ("b", 5)] ∧
    ∀ (i j : Nat) (c1 c2 : Call String),
      (invocations sampleCtx siblingProto [("a", addPtr), ("b", double)] 0)[i]? =
        some c1 →
      (invocations sampleCtx siblingProto [("a", addPtr), ("b", double)] 0)[j]? =
        some c2 →
      c1.node.ptr = 3 → c2.node.ptr = 4 → i < j := by
  have hd : (siblingProto.descendants.map Visitee.ptr).Nodup := by decide
  refine ⟨hd, rfl, ?_⟩
  exact Walk_subtree_before_next_sibling sampleCtx siblingProto
    [("a", addPtr), ("b", double)] 0 hd siblingProto.Elements (Or.inl rfl) 0 1
    (.container .Service 1 [.container .RPC 2 [.leaf .Option 3]])
    (.container .Message 4 [.leaf .Field 5]) rfl rfl (by decide) (.leaf .Option 3)
    (.container .Message 4 [.leaf .Field 5])
    (by simp [subtree, preorder]) (by simp [subtree, preorder])

theorem runCalls_returns {σ : Type} (cs : List (Call (Handler σ)))
    (hret : ∀ c ∈ cs, ReturnsNormally c.handler) (s : σ) :
    ∃ s1, runCalls cs s = .returned s1 := by
  induction cs generalizing s with
  | nil => exact ⟨s, rfl⟩
  | cons c cs ih =>
    obtain ⟨s1, h1⟩ := hret c (List.mem_cons_self _ _) c.ctx c.node s
    obtain ⟨s2, h2⟩ := ih (fun c1 hc1 => hret c1 (List.mem_cons_of_mem _ hc1)) s1
    exact ⟨s2, by simp only [runCalls, h1, Outcome.andThen, h2]⟩

theorem runCalls_callsOn_returns {σ : Type} (ctx : Context) (hs : List (Handler σ))
    (hret : ∀ h ∈ hs, ReturnsNormally h) (ns : List Visitee) (s : σ) :
    ∃ s1, runCalls (callsOn ctx hs ns) s = .returned s1 :=
  runCalls_returns _ (fun _ hc => hret _ (mem_callsOn.1 hc).1) s

theorem callHandlers_returns {σ : Type} (ctx : Context) (v : Visitee)
    (hs : List (Handler σ)) (hret : ∀ h ∈ hs, ReturnsNormally h) (s : σ) :
    ∃ s1, callHandlers ctx v hs s = .returned s1 := by
  rw [callHandlers_eq_runCalls]
  apply runCalls_returns
  intro c hc
  obtain ⟨h, hh, rfl⟩ := List.mem_map.1 hc
  exact hret h hh

theorem walk_returns {σ : Type} (ctx : Context) (hs : List (Handler σ))
    (hret : ∀ h ∈ hs, ReturnsNormally h) (l : List Visitee) (s : σ) :
    ∃ s1, walk ctx hs l s = .returned s1 := by
  rw [walk_eq_runCalls]
  exact runCalls_callsOn_returns ctx hs hret _ s

theorem walkElement_returns {σ : Type} (ctx : Context) (hs : List (Handler σ))
    (hret : ∀ h ∈ hs, ReturnsNormally h) (e : Visitee) (s : σ) :
    ∃ s1, walkElement ctx hs e s = .returned s1 := by
  rw [walkElement_eq_runCalls]
  exact runCalls_callsOn_returns ctx hs hret _ s

mutual
theorem walkElementCount_of_returns {σ : Type} (ctx : Context) (hs : List (Handler σ))
    (hret : ∀ h ∈ hs, ReturnsNormally h) :
    ∀ (e : Visitee) (s : σ),
      walkElementCount ctx hs e s = (walkElement ctx hs e s, (subtree e).length)
  | .leaf t p, s => by simp [walkElementCount, walkElement, subtree]
  | .container t p els, s => by
    obtain ⟨s1, h1⟩ := callHandlers_returns ctx (.container t p els) hs hret s
    simp only [walkElementCount, walkElement, andThenCount, h1, Outcome.andThen,
      subtree, List.length_cons, walkCount_of_returns ctx hs hret els s1]
    rw [Nat.add_comm]
theorem walkCount_of_returns {σ : Type} (ctx : Context) (hs : List (Handler σ))
    (hret : ∀ h ∈ hs, ReturnsNormally h) :
    ∀ (l : List Visitee) (s : σ),
      walkCount ctx hs l s = (walk ctx hs l s, (preorder l).length)
  | [], s => by simp [walkCount, walk, preorder]
  | e :: rest, s => by
    obtain ⟨s1, h1⟩ := walkElement_returns ctx hs hret e s
    simp only [walkCount, walk, andThenCount, walkElementCount_of_returns ctx hs hret e s,
      h1, Outcome.andThen, walkCount_of_returns ctx hs hret rest s1, preorder,
      List.length_append]
end

/-- C14: `Walk` is a total function, defined by structural recursion on the
finite tree.  When all handlers return normally it returns normally, after
exactly one loop iteration per descendant of the root; and it has no error
result of its own: whenever it panics, the panic is that of a call of one of
the handlers on a descendant. -/
theorem Walk_terminates {σ : Type} (ctx : Context) (proto : Proto)
    (hs : List (Handler σ)) (s : σ) :
    ((∀ h ∈ hs, ReturnsNormally h) →
      (∃ s1, Walk ctx proto hs s = .returned s1) ∧
      walkCount ctx hs proto.Elements s =
        (Walk ctx proto hs s, proto.descendants.length)) ∧
    (∀ (e : PanicValue) (sf : σ), Walk ctx proto hs s = .panicked e sf →
      ∃ h ∈ hs, ∃ n ∈ proto.descendants, ∃ sj, h ctx n sj = .panicked e sf) := by
  constructor
  · intro hret
    exact ⟨walk_returns ctx hs hret proto.Elements s,
      walkCount_of_returns ctx hs hret proto.Elements s⟩
  · intro e sf hw
    rw [Walk_eq_runCalls] at hw
    obtain ⟨j, c, sj, hj, _, hfault⟩ := runCalls_panicked _ s e sf hw
    obtain ⟨hh, hctx, hn⟩ := mem_callsOn.1 (List.getElem?_mem hj)
    exact ⟨c.handler, hh, c.node, hn, sj, hctx ▸ hfault⟩

/-- C14, witness: the sample tree with two handlers that return normally. -/
theorem Walk_terminates_witness :
    (∀ h ∈ [addPtr, double], ReturnsNormally h) ∧
    (∃ s1, Walk sampleCtx sampleProto [addPtr, double] 0 = .returned s1) ∧
    walkCount sampleCtx [addPtr, double] sampleProto.Elements 0 = (.returned 22, 3) := by
  have hret : ∀ h ∈ [addPtr, double], ReturnsNormally h := by
    intro h hh
    simp only [List.mem_cons, List.mem_singleton, List.not_mem_nil, or_false] at hh
    rcases hh with rfl | rfl <;> exact fun _ _ _ => ⟨_, rfl⟩
  have h := (Walk_terminates sampleCtx sampleProto [addPtr, double] 0).1 hret
  exact ⟨hret, h.1, h.2⟩

/-! ## Empty containers, repeated children, fusion and exclusivity -/

theorem shape_callsOn {α : Type} (ctx : Context) (ls : List α) (ns : List Visitee) :
    (callsOn ctx ls ns).map Call.shape =
      (ns.map Visitee.ptr).flatMap (fun p => ls.map (fun l => (l, ctx, p))) := by
  induction ns with
  | nil => rfl
  | cons n ns ih =>
    rw [callsOn_cons, List.map_append, ih, List.map_cons, List.flatMap_cons, List.map_map]
    rfl

theorem preorder_plug_ptr (els1 els2 : List Visitee)
    (h : (preorder els1).map Visitee.ptr = (preorder els2).map Visitee.ptr)
    (frames : List Frame) :
    (preorder (plug frames els1)).map Visitee.ptr =
      (preorder (plug frames els2)).map Visitee.ptr := by
  induction frames with
  | nil => exact h
  | cons f fs ih =>
    simp only [plug, preorder_append, preorder_cons, subtree, List.map_append,
      List.map_cons, List.cons_append, Visitee.ptr, ih]

/-- C15: a child that is a container with zero children is walked exactly as a
leaf is: `walk` calls the handlers on the child itself and nothing more, the
invocation log gains exactly these calls, and at any position of the tree the
invocation sequence of `Walk` (calls identified by handler, context and node
identity) is the one obtained with a leaf at that position. -/
theorem Walk_empty_container_like_leaf {α σ : Type} (ctx : Context)
    (hs : List (α × Handler σ)) (s : σ) (log : List (Call α)) (t : Variant) (p : Nat) :
    walkElement ctx (hs.map Prod.snd) (.container t p []) s =
      callHandlers ctx (.container t p []) (hs.map Prod.snd) s ∧
    ((∀ q ∈ hs, ReturnsNormally q.2) →
      (walkElement ctx (tracedAll hs) (.container t p []) (s, log)).state.2 =
        log ++ hs.map (fun q => ⟨q.1, ctx, .container t p []⟩)) ∧
    ((∀ q ∈ hs, ReturnsNormally q.2) →
      ∀ (frames : List Frame) (pre post : List Visitee) (t2 : Variant) (r : Nat),
        (invocations ctx ⟨r, plug frames (pre ++ .container t p [] :: post)⟩ hs s).map
            Call.shape =
          (invocations ctx ⟨r, plug frames (pre ++ .leaf t2 p :: post)⟩ hs s).map
            Call.shape) := by
  refine ⟨?_, ?_, ?_⟩
  · simp [walkElement, walk, andThen_returned]
  · intro hret
    rw [walkElement_eq_runCalls, tracedAll, callsOn_map, runCalls_traced,
      madeCalls_of_returns _ (fun c hc => hret _ (mem_callsOn.1 hc).1)]
    have hsub : subtree (.container t p []) = [.container t p []] := by
      simp [subtree, preorder]
    rw [hsub]
    cases runCalls _ s <;>
      simp [Outcome.mapState, Outcome.state, callsOn, Call.map]
  · intro hret frames pre post t2 r
    rw [invocations_of_returns _ _ _ hret, invocations_of_returns _ _ _ hret,
      shape_callsOn, shape_callsOn]
    congr 1
    apply preorder_plug_ptr
    simp [preorder_append, preorder_cons, subtree, preorder, Visitee.ptr]

/-- C15, witness: below M, between O and F, an empty `Oneof` container and a
leaf with the same identity give the same calls. -/
theorem Walk_empty_container_like_leaf_witness :
    (∀ q ∈ [("a", addPtr), ("b", double)], ReturnsNormally q.2) ∧
    (walkElement sampleCtx (tracedAll [("a", addPtr), ("b", double)])
        (.container .Oneof 9 []) (0, [])).state.2 =
      [⟨"a", sampleCtx, .container .Oneof 9 []⟩, ⟨"b", sampleCtx, .container .Oneof 9 []⟩] ∧
    (invocations sampleCtx
        ⟨0, [.container .Message 1 [.leaf .Option 2, .container .Oneof 9 [], .leaf .Field 3]]⟩
        [("a", addPtr), ("b", double)] 0).map Call.shape =
      (invocations sampleCtx
        ⟨0, [.container .Message 1 [.leaf .Option 2, .leaf .Field 9, .leaf .Field 3]]⟩
        [("a", addPtr), ("b", double)] 0).map Call.shape := by
  have hret : ∀ q ∈ [("a", addPtr), ("b", double)], ReturnsNormally q.2 := by
    intro q hq
    simp only [List.mem_cons, List.mem_singleton, List.not_mem_nil, or_false] at hq
    rcases hq with rfl | rfl <;> exact fun _ _ _ => ⟨_, rfl⟩
  have h := Walk_empty_container_like_leaf sampleCtx [("a", addPtr), ("b", double)] 0 []
    .Oneof 9
  exact ⟨hret, h.2.1 hret,
    h.2.2 hret [⟨.Message, 1, [], []⟩] [.leaf .Option 2] [.leaf .Field 3] .Field 0⟩

mutual
theorem length_subtree : ∀ v : Visitee, (subtree v).length = v.size
  | .leaf t p => by simp [subtree, Visitee.size]
  | .container t p els => by
    simp only [subtree, Visitee.size, List.length_cons, length_preorder els]
    rw [Nat.add_comm]
theorem length_preorder : ∀ l : List Visitee, (preorder l).length = forestSize l
  | [] => by simp [preorder, forestSize]
  | v :: rest => by
    simp only [preorder, forestSize, List.length_append, length_subtree v,
      length_preorder rest]
end

theorem sublist_preorder (l : List Visitee) : l.Sublist (preorder l) := by
  induction l with
  | nil => simp [preorder]
  | cons v l ih =>
    rw [preorder_cons, subtree_eq_cons, List.cons_append]
    exact List.Sublist.cons₂ v (List.sublist_append_of_sublist_right ih)

theorem children_sublist_descendants (proto : Proto) (els : List Visitee)
    (hc : els = proto.Elements ∨ ∃ c ∈ proto.descendants, c.asContainer = some els) :
    els.Sublist proto.descendants := by
  obtain ⟨X, Z, hXZ⟩ := preorder_split_container proto els hc
  rw [hXZ]
  exact List.sublist_append_of_sublist_left
    (List.sublist_append_of_sublist_right (sublist_preorder els))

/-- C16: `Walk` neither deduplicates nor reorders children.  With no
assumption that nodes are distinct (handlers returning normally): the calls of
every single handler run through all descendant positions in pre-order, so a
node is called once per occurrence; the sequence of visited nodes is the
pre-order listing of all positions, has as many entries as the tree has
descendant positions, and contains the children of every container in their
stored order. -/
theorem Walk_keeps_repeated_children {σ : Type} (ctx : Context) (proto : Proto)
    (hs : List (Handler σ)) (s : σ) (hret : ∀ h ∈ hs, ReturnsNormally h) :
    (∀ i, i < hs.length →
      ((invocations ctx proto hs.enum s).filter (fun c => decide (c.handler = i))).map
        Call.node = proto.descendants) ∧
    (∀ (n : Visitee) (i : Nat), i < hs.length →
      (invocations ctx proto hs.enum s).countP
          (fun c => decide (c.handler = i ∧ c.node.ptr = n.ptr)) =
        (proto.descendants.map Visitee.ptr).count n.ptr) ∧
    (hs ≠ [] →
      visitedNodes hs.length (invocations ctx proto hs.enum s) = proto.descendants ∧
      (visitedNodes hs.length (invocations ctx proto hs.enum s)).length =
        forestSize proto.Elements ∧
      ∀ els : List Visitee,
        (els = proto.Elements ∨ ∃ c ∈ proto.descendants, c.asContainer = some els) →
        els.Sublist (visitedNodes hs.length (invocations ctx proto hs.enum s))) := by
  have hinv := invocations_enum_of_returns ctx proto hs hret s
  have hfilter : ∀ i, i < hs.length →
      ((invocations ctx proto hs.enum s).filter (fun c => decide (c.handler = i))).map
        Call.node = proto.descendants := by
    intro i hi
    rw [hinv]
    exact filter_handler_callsOn_range ctx hs.length i hi _
  refine ⟨hfilter, ?_, ?_⟩
  · intro n i hi
    have h1 : (proto.descendants.map Visitee.ptr).count n.ptr =
        proto.descendants.countP (fun v => decide (v.ptr = n.ptr)) := by
      rw [List.count_eq_countP, List.countP_map]
      rfl
    rw [h1]
    conv_rhs => rw [← hfilter i hi]
    rw [List.countP_map, List.countP_filter]
    congr 1
    funext c
    simp only [Function.comp, Bool.decide_and]
    exact Bool.and_comm _ _
  · intro hne
    have hvis : visitedNodes hs.length (invocations ctx proto hs.enum s) =
        proto.descendants := by
      rw [hinv]
      have hr : List.range hs.length ≠ [] := by
        intro h0
        have hl := congrArg List.length h0
        rw [List.length_range, List.length_nil] at hl
        exact hne (List.length_eq_zero.1 hl)
      have := visitedNodes_callsOn ctx (List.range hs.length) hr proto.descendants
      rwa [List.length_range] at this
    refine ⟨hvis, ?_, ?_⟩
    · rw [hvis]
      exact length_preorder proto.Elements
    · intro els hc
      rw [hvis]
      exact children_sublist_descendants proto els hc

/-- C16, witness: in root -> [F, F, M -> [O, O]] the node F and the node O
occur twice each; every handler is called twice on each of them and the visited
sequence has all five positions. -/
theorem Walk_keeps_repeated_children_witness :
    (∀ h ∈ [addPtr, double], ReturnsNormally h) ∧
    (invocations sampleCtx repeatedProto [addPtr, double].enum 0).countP
        (fun c => decide (c.handler = 1 ∧ c.node.ptr = 5)) = 2 ∧
    visitedNodes 2 (invocations sampleCtx repeatedProto [addPtr, double].enum 0) =
      [.leaf .Field 5, .leaf .Field 5,
       .container .Message 1 [.leaf .Option 2, .leaf .Option 2],
       .leaf .Option 2, .leaf .Option 2] ∧
    (visitedNodes 2 (invocations sampleCtx repeatedProto [addPtr, double].enum 0)).length =
      5 := by
  have hret : ∀ h ∈ [addPtr, double], ReturnsNormally h := by
    intro h hh
    simp only [List.mem_cons, List.mem_singleton, List.not_mem_nil, or_false] at hh
    rcases hh with rfl | rfl <;> exact fun _ _ _ => ⟨_, rfl⟩
  have h := Walk_keeps_repeated_children sampleCtx repeatedProto [addPtr, double] 0 hret
  have h3 := h.2.2 (by simp)
  exact ⟨hret, h.2.1 (.leaf .Field 5) 1 (by decide), h3.1, h3.2.1⟩

theorem fuse_eq_callHandlers {σ : Type} (hs : List (Handler σ)) (ctx : Context)
    (v : Visitee) (s : σ) : fuse hs ctx v s = callHandlers ctx v hs s := by
  induction hs generalizing s with
  | nil => rfl
  | cons h hs ih =>
    simp only [fuse, callHandlers]
    congr 1
    funext s1
    exact ih s1

theorem callHandlers_append {σ : Type} (ctx : Context) (v : Visitee)
    (a b : List (Handler σ)) (s : σ) :
    callHandlers ctx v (a ++ b) s =
      (callHandlers ctx v a s).andThen (callHandlers ctx v b) := by
  rw [callHandlers_eq_runCalls, List.map_append, runCalls_append,
    callHandlers_eq_runCalls]
  congr 1
  funext s1
  rw [callHandlers_eq_runCalls]

theorem Walk_congr_handlers {σ : Type} (ctx : Context) (proto : Proto)
    (hs1 hs2 : List (Handler σ))
    (h : ∀ (v : Visitee) (s : σ), callHandlers ctx v hs1 s = callHandlers ctx v hs2 s)
    (s : σ) : Walk ctx proto hs1 s = Walk ctx proto hs2 s := by
  rw [Walk_eq_runCalls, Walk_eq_runCalls]
  generalize proto.descendants = ns
  induction ns generalizing s with
  | nil => rfl
  | cons n ns ih =>
    rw [runCalls_callsOn_cons, runCalls_callsOn_cons, h n s]
    congr 1
    funext s1
    exact ih s1

theorem Walk_fuse_one {σ : Type} (ctx : Context) (proto : Proto)
    (hs : List (Handler σ)) (s : σ) :
    Walk ctx proto [fuse hs] s = Walk ctx proto hs s := by
  apply Walk_congr_handlers
  intro v s1
  simp only [callHandlers, fuse_eq_callHandlers, andThen_returned]

theorem Walk_fuse_two {σ : Type} (ctx : Context) (proto : Proto)
    (hs1 hs2 : List (Handler σ)) (s : σ) :
    Walk ctx proto [fuse hs1, fuse hs2] s = Walk ctx proto (hs1 ++ hs2) s := by
  apply Walk_congr_handlers
  intro v s1
  simp only [callHandlers, fuse_eq_callHandlers, andThen_returned, callHandlers_append]

/-- C17: `Walk` with a handler list is equivalent to `Walk` with the single
fused handler, and `Walk` with a concatenation `hs1 ++ hs2` is equivalent to
`Walk` with the two fused handlers: the outcome (final caller state, or panic)
is the same, and so is the sequence of calls of the underlying handlers. -/
theorem Walk_fuse {α σ : Type} (ctx : Context) (proto : Proto)
    (hs hs1 hs2 : List (α × Handler σ)) (s : σ) :
    Walk ctx proto [fuse (hs.map Prod.snd)] s = Walk ctx proto (hs.map Prod.snd) s ∧
    (Walk ctx proto [fuse (tracedAll hs)] (s, [])).state.2 = invocations ctx proto hs s ∧
    Walk ctx proto [fuse (hs1.map Prod.snd), fuse (hs2.map Prod.snd)] s =
      Walk ctx proto ((hs1 ++ hs2).map Prod.snd) s ∧
    (Walk ctx proto [fuse (tracedAll hs1), fuse (tracedAll hs2)] (s, [])).state.2 =
      invocations ctx proto (hs1 ++ hs2) s := by
  refine ⟨Walk_fuse_one ctx proto _ s, ?_, ?_, ?_⟩
  · rw [Walk_fuse_one]
    rfl
  · rw [Walk_fuse_two, List.map_append]
  · rw [Walk_fuse_two]
    unfold invocations tracedAll
    rw [List.map_append]

/-- C17, witness: the sample tree with the handlers a = `addPtr`, b = `double`,
fused into one handler and into the two handlers fuse [a], fuse [b]. -/
theorem Walk_fuse_witness :
    Walk sampleCtx sampleProto [fuse [addPtr, double]] 0 = .returned 22 ∧
    (Walk sampleCtx sampleProto
        [fuse (tracedAll [("a", addPtr)]), fuse (tracedAll [("b", double)])]
        (0, [])).state.2 =
      invocations sampleCtx sampleProto [("a", addPtr), ("b", double)] 0 := by
  have h := Walk_fuse sampleCtx sampleProto [("a", addPtr), ("b", double)]
    [("a", addPtr)] [("b", double)] 0
  exact ⟨h.1.trans rfl, h.2.2.2⟩

theorem adapter_target_mem (σ : Type) (a : Adapter σ) : a.target ∈ adapterTargets := by
  cases a <;> simp [Adapter.target, adapterTargets]

theorem length_madeCalls_le {α σ : Type} (cs : List (Call (α × Handler σ))) (s : σ) :
    (madeCalls cs s).length ≤ cs.length := by
  obtain ⟨t, ht⟩ := madeCalls_append_rest cs s
  have h := congrArg List.length ht
  rw [List.length_append, List.length_map] at h
  omega

theorem callbackCallsOn_eq_madeCalls {α σ : Type} (ctx : Context) (v : Visitee)
    (adapters : List (α × Adapter σ)) (s : σ) :
    callbackCallsOn ctx v adapters s =
      madeCalls
        (((callsOn ctx adapters [v]).filter
          (fun c => decide (c.node.variant = c.handler.2.target))).map
          (Call.map (fun p => (p.1, p.2.handler)))) s := by
  unfold callbackCallsOn
  have hcalls : callHandlers ctx v (adapters.map (fun q => (q.2.traced q.1).handler))
      (s, ([] : List (Call α))) =
      runCalls ((callsOn ctx adapters [v]).map
        (Call.map (fun p => (p.2.traced p.1).handler))) (s, []) := by
    rw [callHandlers_eq_runCalls, ← callsOn_map]
    simp [callsOn]
  rw [hcalls, runCalls_adapters]
  have hmap : ∀ l : List (Call (α × Adapter σ)),
      l.map (Call.map (fun p => traced p.1 p.2.handler)) =
        (l.map (Call.map (fun p => (p.1, p.2.handler)))).map
          (Call.map (fun q => traced q.1 q.2)) := by
    intro l
    rw [List.map_map]
    rfl
  rw [hmap, runCalls_traced]
  cases runCalls _ s <;> simp [Outcome.mapState, Outcome.state]

theorem length_filter_target_le_one {α σ : Type} (ctx : Context) (v : Visitee)
    (adapters : List (α × Adapter σ))
    (hnd : (adapters.map (fun q => q.2.target)).Nodup) :
    ((callsOn ctx adapters [v]).filter
      (fun c => decide (c.node.variant = c.handler.2.target))).length ≤ 1 := by
  have h1 : (callsOn ctx adapters [v]).filter
      (fun c => decide (c.node.variant = c.handler.2.target)) =
      (adapters.filter (fun q => decide (v.variant = q.2.target))).map
        (fun q => ⟨q, ctx, v⟩) := by
    simp only [callsOn, List.flatMap_cons, List.flatMap_nil, List.append_nil,
      List.filter_map]
    rfl
  rw [h1, List.length_map, ← List.countP_eq_length_filter]
  have h2 : adapters.countP (fun q => decide (v.variant = q.2.target)) =
      (adapters.map (fun q => q.2.target)).count v.variant := by
    rw [List.count_eq_countP, List.countP_map]
    congr 1
    funext q
    show decide (v.variant = q.2.target) = decide (q.2.target = v.variant)
    exact decide_eq_decide.2 eq_comm
  rw [h2]
  exact List.nodup_iff_count_le_one.1 hnd v.variant

/-- C18: the typed adapters are mutually exclusive.  When the handlers of typed
adapters with pairwise different target variants, the eight of `walk.go` in
particular, are called on one node, at most one wrapped callback is invoked;
on a node of a variant outside the eight targets (a field, an enum field)
none is invoked; and every callback call made during a `Walk` with typed
adapters is made by an adapter whose target is the variant of the node, so no
callback call is made for a node of a variant outside the eight. -/
theorem adapters_mutually_exclusive {α σ : Type} (ctx : Context) (s : σ) :
    (∀ (v : Visitee) (adapters : List (α × Adapter σ)),
      (adapters.map (fun q => q.2.target)).Nodup →
      (callbackCallsOn ctx v adapters s).length ≤ 1) ∧
    (∀ (v : Visitee)
      (f1 : Callback .Import σ)
      (f2 : Callback .Message σ)
      (f3 : Callback .Option σ)
      (f4 : Callback .Enum σ)
      (f5 : Callback .Oneof σ)
      (f6 : Callback .Service σ)
      (f7 : Callback .RPC σ)
      (f8 : Callback .Package σ),
      (callbackCallsOn ctx v
        [
          (Variant.Import, Adapter.withImport f1),
          (Variant.Message, Adapter.withMessage f2),
          (Variant.Option, Adapter.withOption f3),
          (Variant.Enum, Adapter.withEnum f4),
          (Variant.Oneof, Adapter.withOneof f5),
          (Variant.Service, Adapter.withService f6),
          (Variant.RPC, Adapter.withRPC f7),
          (Variant.Package, Adapter.withPackage f8)] s).length ≤ 1) ∧
    (∀ (v : Visitee) (adapters : List (α × Adapter σ)),
      v.variant ∉ adapterTargets → callbackCallsOn ctx v adapters s = []) ∧
    (∀ (proto : Proto) (adapters : List (α × Adapter σ)),
      ∀ c ∈ callbackCalls ctx proto adapters s,
        c.node.variant ∈ adapterTargets ∧
        ∃ q ∈ adapters, q.1 = c.handler ∧ q.2.target = c.node.variant) := by
  have hA : ∀ (β : Type) (v : Visitee) (adapters : List (β × Adapter σ)),
      (adapters.map (fun q => q.2.target)).Nodup →
      (callbackCallsOn ctx v adapters s).length ≤ 1 := by
    intro β v adapters hnd
    rw [callbackCallsOn_eq_madeCalls]
    refine Nat.le_trans (length_madeCalls_le _ s) ?_
    rw [List.length_map]
    exact length_filter_target_le_one ctx v adapters hnd
  have hmem : ∀ (l : List (Call (α × Adapter σ))) (c : Call α),
      c ∈ madeCalls ((l.filter (fun c => decide (c.node.variant = c.handler.2.target))).map
        (Call.map (fun p => (p.1, p.2.handler)))) s →
      ∃ c0 ∈ l, c0.node.variant = c0.handler.2.target ∧ c0.handler.1 = c.handler ∧
        c0.node = c.node := by
    intro l c hc
    have h1 := mem_madeCalls hc
    rw [List.map_map] at h1
    obtain ⟨c0, hc0, rfl⟩ := List.mem_map.1 h1
    obtain ⟨hc0l, hp⟩ := List.mem_filter.1 hc0
    exact ⟨c0, hc0l, of_decide_eq_true hp, rfl, rfl⟩
  refine ⟨hA α, ?_, ?_, ?_⟩
  · intro v f1 f2 f3 f4 f5 f6 f7 f8
    exact hA Variant v _ (by simp [Adapter.target])
  · intro v adapters hv
    rw [callbackCallsOn_eq_madeCalls]
    cases hm : madeCalls (((callsOn ctx adapters [v]).filter
        (fun c => decide (c.node.variant = c.handler.2.target))).map
        (Call.map (fun p => (p.1, p.2.handler)))) s with
    | nil => rfl
    | cons c rest =>
      exfalso
      have hc : c ∈ madeCalls (((callsOn ctx adapters [v]).filter
          (fun c => decide (c.node.variant = c.handler.2.target))).map
          (Call.map (fun p => (p.1, p.2.handler)))) s := by
        rw [hm]
        exact List.mem_cons_self _ _
      obtain ⟨c0, hc0, htarget, _, _⟩ := hmem _ c hc
      have hnode : c0.node = v := by
        have := (mem_callsOn.1 hc0).2.2
        simpa using this
      rw [hnode] at htarget
      exact hv (htarget ▸ adapter_target_mem σ c0.handler.2)
  · intro proto adapters c hc
    rw [callbackCalls_eq_madeCalls] at hc
    obtain ⟨c0, hc0, htarget, hlabel, hnode⟩ := hmem _ c hc
    have hq := (mem_callsOn.1 hc0).1
    rw [← hnode]
    exact ⟨htarget ▸ adapter_target_mem σ c0.handler.2,
      c0.handler, hq, hlabel, htarget.symm⟩

/-- C18, witness: the eight adapters of `walk.go`, each with a recording
callback, called on a message node and on a field node. -/
theorem adapters_mutually_exclusive_witness :
    ((([
        (Variant.Import, Adapter.withImport (addNarrowedPtr .Import)),
        (Variant.Message, Adapter.withMessage (addNarrowedPtr .Message)),
        (Variant.Option, Adapter.withOption (addNarrowedPtr .Option)),
        (Variant.Enum, Adapter.withEnum (addNarrowedPtr .Enum)),
        (Variant.Oneof, Adapter.withOneof (addNarrowedPtr .Oneof)),
        (Variant.Service, Adapter.withService (addNarrowedPtr .Service)),
        (Variant.RPC, Adapter.withRPC (addNarrowedPtr .RPC)),
        (Variant.Package, Adapter.withPackage (addNarrowedPtr .Package))] : List (Variant × Adapter Nat)).map (fun q => q.2.target)).Nodup) ∧
    callbackCallsOn sampleCtx (.container .Message 1 [])
      ([
        (Variant.Import, Adapter.withImport (addNarrowedPtr .Import)),
        (Variant.Message, Adapter.withMessage (addNarrowedPtr .Message)),
        (Variant.Option, Adapter.withOption (addNarrowedPtr .Option)),
        (Variant.Enum, Adapter.withEnum (addNarrowedPtr .Enum)),
        (Variant.Oneof, Adapter.withOneof (addNarrowedPtr .Oneof)),
        (Variant.Service, Adapter.withService (addNarrowedPtr .Service)),
        (Variant.RPC, Adapter.withRPC (addNarrowedPtr .RPC)),
        (Variant.Package, Adapter.withPackage (addNarrowedPtr .Package))] : List (Variant × Adapter Nat)) 0 =
      [⟨.Message, sampleCtx, .container .Message 1 []⟩] ∧
    (callbackCallsOn sampleCtx (.container .Message 1 [])
      ([
        (Variant.Import, Adapter.withImport (addNarrowedPtr .Import)),
        (Variant.Message, Adapter.withMessage (addNarrowedPtr .Message)),
        (Variant.Option, Adapter.withOption (addNarrowedPtr .Option)),
        (Variant.Enum, Adapter.withEnum (addNarrowedPtr .Enum)),
        (Variant.Oneof, Adapter.withOneof (addNarrowedPtr .Oneof)),
        (Variant.Service, Adapter.withService (addNarrowedPtr .Service)),
        (Variant.RPC, Adapter.withRPC (addNarrowedPtr .RPC)),
        (Variant.Package, Adapter.withPackage (addNarrowedPtr .Package))] : List (Variant × Adapter Nat)) 0).length ≤ 1 ∧
    Visitee.variant (.leaf .Field 3) ∉ adapterTargets ∧
    callbackCallsOn sampleCtx (.leaf .Field 3)
      ([
        (Variant.Import, Adapter.withImport (addNarrowedPtr .Import)),
        (Variant.Message, Adapter.withMessage (addNarrowedPtr .Message)),
        (Variant.Option, Adapter.withOption (addNarrowedPtr .Option)),
        (Variant.Enum, Adapter.withEnum (addNarrowedPtr .Enum)),
        (Variant.Oneof, Adapter.withOneof (addNarrowedPtr .Oneof)),
        (Variant.Service, Adapter.withService (addNarrowedPtr .Service)),
        (Variant.RPC, Adapter.withRPC (addNarrowedPtr .RPC)),
        (Variant.Package, Adapter.withPackage (addNarrowedPtr .Package))] : List (Variant × Adapter Nat)) 0 = [] := by
  have h := @adapters_mutually_exclusive Variant Nat sampleCtx 0
  have hnd : ((([
        (Variant.Import, Adapter.withImport (addNarrowedPtr .Import)),
        (Variant.Message, Adapter.withMessage (addNarrowedPtr .Message)),
        (Variant.Option, Adapter.withOption (addNarrowedPtr .Option)),
        (Variant.Enum, Adapter.withEnum (addNarrowedPtr .Enum)),
        (Variant.Oneof, Adapter.withOneof (addNarrowedPtr .Oneof)),
        (Variant.Service, Adapter.withService (addNarrowedPtr .Service)),
        (Variant.RPC, Adapter.withRPC (addNarrowedPtr .RPC)),
        (Variant.Package, Adapter.withPackage (addNarrowedPtr .Package))] : List (Variant × Adapter Nat)).map (fun q => q.2.target)).Nodup) := by
    decide
  have hv : Visitee.variant (.leaf .Field 3) ∉ adapterTargets := by decide
  exact ⟨hnd, rfl, h.1 _ _ hnd, hv, h.2.2.1 _ _ hv⟩

end ProtoWalk
